import Mathlib

/-!
Verification of the dependency-aware task execution engine in `jtbd/runner.go`.

The Go code is shallowly embedded: Go maps with zero-value defaults become
functions (`String → Bool`, `String → Int`, `String → List String`), the
`atomic.Int32` counters become `Int` with explicit wrapping at 2^32 (balanced,
i.e. two's complement), fallible functions returning `(T, error)` become
`Except String T` or pairs with `Option String`, and the lifecycle callbacks
(`Setup`/`Execute`/`Teardown`, Go funcs of a context returning `error`) are
determinized as `Nat → Option String`: the argument is the retry-attempt index
at which the callback is invoked and the result is the returned error, if any.
Wall-clock time (timeouts, backoff sleeps, Start/End times) is not modeled;
context cancellation is modeled as an explicit scheduler event in the parallel
run model. Non-structural recursions (the DFS of `hasCycle`, the Kahn loop of
`GetExecutionOrder`) take an explicit fuel argument; the callers pass a fuel
that is proved (or, for the Kahn loop, chosen) large enough.
-/

namespace JTBD

/-- Go constant `ExecutionModeSequential` (ExecutionMode is a string type). -/
def executionModeSequential : String := "sequential"

/-- Go constant `ExecutionModeParallel`. -/
def executionModeParallel : String := "parallel"

/-- Go constant `ExecutionModeFailFast`. -/
def executionModeFailFast : String := "fail-fast"

/-- Go constant `ExecutionModeComprehensive`. -/
def executionModeComprehensive : String := "comprehensive"

/-- Go `TestStatus` string constants, as an enumeration of the six values
used by runner.go. -/
inductive TestStatus where
  | pending
  | running
  | passed
  | failed
  | skipped
  | retrying
deriving DecidableEq, Repr

/-- Spec §3: terminal states are Passed, Failed, Skipped. -/
def TestStatus.isTerminal : TestStatus → Bool
  | .passed => true
  | .failed => true
  | .skipped => true
  | _ => false

/-- Go struct `Test` (runner.go lines 41-54).  `Timeout` is a
`time.Duration` (nanoseconds, Go int64); the lifecycle callbacks are
determinized by the attempt index (see module docstring). -/
structure Test where
  id : String
  name : String := ""
  description : String := ""
  dependencies : List String := []
  priority : Int := 0
  timeout : Int := 0
  maxRetries : Nat := 0
  setup : Option (Nat → Option String) := none
  execute : Option (Nat → Option String) := none
  teardown : Option (Nat → Option String) := none

/-- Go struct `ExecutionResult` (runner.go lines 57-68), without the
wall-clock fields `StartTime`/`EndTime`/`Duration` and with `Error` and
`ErrorMessage` merged into the message string (Go keeps the error and its
`Error()` string side by side). -/
structure ExecutionResult where
  testID : String
  status : TestStatus
  errorMessage : String := ""
  retryCount : Nat := 0
  output : String := ""
  skipReason : String := ""
deriving DecidableEq, Repr

/-- Go struct `RunConfig` (runner.go lines 71-78). `MaxWorkers` is a Go
`int`, modeled as `Int` so that the clamping of out-of-range values is
observable. -/
structure RunConfig where
  mode : String
  maxWorkers : Int
  globalTimeout : Int := 0
  testTimeout : Int := 0
  enableRetry : Bool := false
  isolateTests : Bool := false
deriving DecidableEq, Repr

/-- Go `DefaultRunConfig` (runner.go lines 81-90); durations in nanoseconds. -/
def DefaultRunConfig : RunConfig :=
  { mode := executionModeParallel
    maxWorkers := 10
    globalTimeout := 1800000000000
    testTimeout := 300000000000
    enableRetry := true
    isolateTests := true }

/-- Go struct `ExecutionPlan` (runner.go lines 120-126): the test list, the
dependency map, and the completion/failure marker maps (Go maps with `false`
default). -/
structure ExecutionPlan where
  tests : List Test
  dependencies : String → List String
  completed : String → Bool
  failed : String → Bool

/-- Pointwise update of a boolean map, modeling `m[k] = true`. -/
def setTrue (m : String → Bool) (k : String) : String → Bool :=
  fun x => if x = k then true else m x

/-- Pointwise update of a boolean map, modeling `m[k] = false`. -/
def setFalse (m : String → Bool) (k : String) : String → Bool :=
  fun x => if x = k then false else m x

/-- Pointwise update of an integer map, modeling `m[k] = v`. -/
def setInt (m : String → Int) (k : String) (v : Int) : String → Int :=
  fun x => if x = k then v else m x

/-- The dependency map built by `NewExecutionPlan` (runner.go lines 526-528):
`plan.dependencies[test.ID] = test.Dependencies` for each test in order, a
missing key reading as the empty list (Go nil slice). -/
def depsMap (tests : List Test) : String → List String :=
  tests.foldl (fun m t => fun x => if x = t.id then t.dependencies else m x)
    (fun _ => [])

/-- The edge relation of the declared dependency graph: `Edge deps x y` holds
when task `x` declares a dependency on `y`. -/
def Edge (deps : String → List String) (x y : String) : Prop :=
  y ∈ deps x

/-- The dependency edges contain a (directed) cycle. -/
def HasCycle (deps : String → List String) : Prop :=
  ∃ x, Relation.TransGen (Edge deps) x x

mutual

/-- Go `hasCycle` (runner.go lines 653-669): DFS back-edge detection over the
`dependencies` map, with the `visited` and `recStack` sets threaded as state.
Returns `(cycleFound, visited, recStack)`; `none` on fuel exhaustion (one
fuel unit is burned per node visit and per dependency-list element; the
caller's fuel is proved sufficient).  On a `false` return the recursion-stack
entry of the node is cleared, exactly as in the Go code; on a `true` return
the Go function returns immediately without clearing it. -/
def hasCycle (deps : String → List String) (fuel : Nat) (testID : String)
    (visited recStack : String → Bool) :
    Option (Bool × (String → Bool) × (String → Bool)) :=
  match fuel with
  | 0 => none
  | Nat.succ f =>
    let visited1 := setTrue visited testID
    let recStack1 := setTrue recStack testID
    match hasCycleDeps deps f (deps testID) visited1 recStack1 with
    | none => none
    | some (true, v, r) => some (true, v, r)
    | some (false, v, r) => some (false, v, setFalse r testID)

/-- The `for _, depID := range ep.dependencies[testID]` loop body of Go
`hasCycle`: recurse into unvisited dependencies, report a cycle when a
dependency is on the recursion stack. -/
def hasCycleDeps (deps : String → List String) (fuel : Nat) (l : List String)
    (visited recStack : String → Bool) :
    Option (Bool × (String → Bool) × (String → Bool)) :=
  match fuel with
  | 0 => none
  | Nat.succ f =>
    match l with
    | [] => some (false, visited, recStack)
    | depID :: rest =>
      if visited depID = false then
        match hasCycle deps f depID visited recStack with
        | none => none
        | some (true, v, r) => some (true, v, r)
        | some (false, v, r) => hasCycleDeps deps f rest v r
      else if recStack depID = true then
        some (true, visited, recStack)
      else
        hasCycleDeps deps f rest visited recStack

end

/-- All identifiers the DFS can ever touch: the test IDs and every declared
dependency ID. -/
def allIDs (tests : List Test) : List String :=
  tests.map (fun t => t.id) ++ tests.flatMap (fun t => t.dependencies)

/-- Fuel weight of the still-unvisited part of the ID universe: one unit for
the node visit plus one per dependency-list element. -/
def dfsWeight (deps : String → List String) (U : List String)
    (visited : String → Bool) : Nat :=
  match U with
  | [] => 0
  | u :: rest =>
    (if visited u = false then 1 + (deps u).length else 0) +
      dfsWeight deps rest visited

/-- Every recursion-stack member is visited (an invariant of the DFS
state). -/
def GreyVis (visited recStack : String → Bool) : Prop :=
  ∀ x, recStack x = true → visited x = true

/-- The "is a successor of" relation: `DepRel deps y x` holds when `x` has a
dependency edge to `y`.  Accessibility under it means every forward walk
from `x` along dependency edges terminates. -/
def DepRel (deps : String → List String) (y x : String) : Prop :=
  Edge deps x y

/-- Every finished (visited and off-stack) node is accessible: the key
invariant for the completeness of the cycle detection. -/
def AccInv (deps : String → List String) (visited recStack : String → Bool) :
    Prop :=
  ∀ x, visited x = true → recStack x = false → Acc (DepRel deps) x

/-- Fuel passed by `detectCircularDependencies` to the DFS: enough for the
whole universe. -/
def dfsFuel (tests : List Test) : Nat :=
  dfsWeight (depsMap tests) (allIDs tests) (fun _ => false) + 1

/-- The `for _, test := range ep.tests` loop of Go
`detectCircularDependencies` (runner.go lines 641-647), threading the shared
`visited`/`recStack` maps; `some err?` is the loop's outcome, `none` fuel
exhaustion. -/
def detectLoop (deps : String → List String) (fuel : Nat) :
    List Test → (String → Bool) → (String → Bool) → Option (Option String)
  | [], _, _ => some none
  | t :: rest, visited, recStack =>
    if visited t.id = false then
      match hasCycle deps fuel t.id visited recStack with
      | none => none
      | some (true, _, _) =>
        some (some ("circular dependency detected involving test: " ++ t.id))
      | some (false, v, r) => detectLoop deps fuel rest v r
    else detectLoop deps fuel rest visited recStack

/-- Go `detectCircularDependencies` (runner.go lines 637-650): returns the
error message, if any.  The fuel-exhaustion branch is unreachable for the
fuel chosen (proved below). -/
def detectCircularDependencies (tests : List Test) : Option String :=
  match detectLoop (depsMap tests) (dfsFuel tests) tests
      (fun _ => false) (fun _ => false) with
  | none => some "fuel exhausted"
  | some e => e

/-- Go `NewExecutionPlan` (runner.go lines 517-536): build the dependency
map, reject circular dependencies, no other validation. -/
def NewExecutionPlan (tests : List Test) : Except String ExecutionPlan :=
  match detectCircularDependencies tests with
  | some e => Except.error e
  | none =>
    Except.ok
      { tests := tests
        dependencies := depsMap tests
        completed := fun _ => false
        failed := fun _ => false }

/-- The in-degree map built by Go `GetExecutionOrder` (runner.go lines
544-552): for every test and every declared dependency, `inDegree[dep]++`
(the `if !exists` zero-initialization is a no-op for a zero-default map). -/
def buildInDegree (tests : List Test) : String → Int :=
  tests.foldl
    (fun m t => t.dependencies.foldl (fun m2 d => setInt m2 d (m2 d + 1)) m)
    (fun _ => 0)

/-- One dependency check of Go `GetExecutionOrder`'s Kahn loop (runner.go
lines 577-584): when the dependency equals the dequeued node's ID,
decrement `inDegree[t.ID]` and enqueue `t` when the counter reaches exactly
zero.  The state is the in-degree map and the queue. -/
def kahnDec (cid : String) (t : Test) (acc : (String → Int) × List Test)
    (dep : String) : (String → Int) × List Test :=
  if dep = cid then
    if setInt acc.1 t.id (acc.1 t.id - 1) t.id = 0 then
      (setInt acc.1 t.id (acc.1 t.id - 1), acc.2 ++ [t])
    else (setInt acc.1 t.id (acc.1 t.id - 1), acc.2)
  else acc

/-- Inner scan of Go `GetExecutionOrder`'s Kahn loop (runner.go lines
576-585): run `kahnDec` over every test and each of its dependencies. -/
def kahnScan (current : Test) (tests : List Test)
    (st : (String → Int) × List Test) : (String → Int) × List Test :=
  tests.foldl (fun acc t => t.dependencies.foldl (kahnDec current.id t) acc) st

/-- The `for len(queue) > 0` loop of Go `GetExecutionOrder` (runner.go lines
570-586), with fuel (the caller passes one unit per possible queue pop). -/
def kahnLoop (tests : List Test) : Nat → (String → Int) → List Test →
    List Test → List Test
  | _, _, [], ordered => ordered
  | 0, _, _, ordered => ordered
  | Nat.succ f, inDegree, current :: qrest, ordered =>
    let st := kahnScan current tests (inDegree, qrest)
    kahnLoop tests f st.1 st.2 (ordered ++ [current])

/-- Fuel for the Kahn loop: total pushes are bounded by the initial queue
plus one per dependency-list entry. -/
def kahnFuel (tests : List Test) : Nat :=
  tests.length + (tests.map (fun t => t.dependencies.length)).sum + 1

/-- The initial queue of Go `GetExecutionOrder` (runner.go lines 559-563):
the tests with no dependencies. -/
def kahnInit (tests : List Test) : List Test :=
  tests.filter (fun t => t.dependencies.length = 0)

/-- The full Kahn loop of Go `GetExecutionOrder`, from the built in-degree
map and initial queue. -/
def kahnRun (tests : List Test) : List Test :=
  kahnLoop tests (kahnFuel tests) (buildInDegree tests) (kahnInit tests) []

/-- Go `GetExecutionOrder` (runner.go lines 539-593): Kahn's algorithm with
the in-degree map of `buildInDegree`, initial queue the tests with no
dependencies, and the defensive length check reporting a cycle. -/
def GetExecutionOrder (ep : ExecutionPlan) : Except String (List Test) :=
  if (kahnRun ep.tests).length ≠ ep.tests.length then
    Except.error "circular dependency detected"
  else
    Except.ok (kahnRun ep.tests)

/-- Go `GetReadyTests` (runner.go lines 596-620): tests neither completed nor
failed, all of whose dependencies are completed and none failed. -/
def GetReadyTests (ep : ExecutionPlan) : List Test :=
  ep.tests.filter (fun t =>
    !(ep.completed t.id) && !(ep.failed t.id) &&
      t.dependencies.all (fun d => ep.completed d && !(ep.failed d)))

/-- Go `ExecutionPlan.MarkCompleted` (runner.go lines 623-627). -/
def MarkCompleted (ep : ExecutionPlan) (testID : String) : ExecutionPlan :=
  { ep with completed := setTrue ep.completed testID }

/-- Go `ExecutionPlan.MarkFailed` (runner.go lines 630-634). -/
def MarkFailed (ep : ExecutionPlan) (testID : String) : ExecutionPlan :=
  { ep with failed := setTrue ep.failed testID }

/-- Two's-complement wrap of an integer to 32 bits, the value stored by a Go
`int32`/`atomic.Int32` after overflow. -/
def int32 (n : Int) : Int := Int.bmod n (2 ^ 32)

/-- Go `atomic.Int32.Add`: 32-bit wrapping addition. -/
def add32 (a b : Int) : Int := int32 (a + b)

/-- Go struct `ExecutionEngine` (runner.go lines 93-117), restricted to the
state observable in the untimed model: the synchronization primitives
(`workChan`, `wg`, `ctx`, mutexes) live in the parallel-run model below. -/
structure ExecutionEngine where
  tests : List Test
  config : RunConfig
  plan : ExecutionPlan
  totalTests : Int := 0
  passedTests : Int := 0
  failedTests : Int := 0
  skippedTests : Int := 0
  retryAttempts : Int := 0
  results : List ExecutionResult := []
  completedTests : String → Bool := fun _ => false
  failedTestsList : String → Bool := fun _ => false

/-- Go struct `TestMetrics` (runner.go lines 129-135). -/
structure TestMetrics where
  total : Int
  passed : Int
  failed : Int
  skipped : Int
  retries : Int
deriving DecidableEq, Repr

/-- The "Validate and cap max workers" block of Go `NewExecutionEngine`
(runner.go lines 146-152), which assigns to `config.MaxWorkers` through the
caller's pointer. -/
def clampLow (config0 : RunConfig) : RunConfig :=
  if config0.maxWorkers < 1 then { config0 with maxWorkers := 1 } else config0

/-- Second half of the clamping block (runner.go lines 150-152): the safety
cap at 100, applied to the result of `clampLow`. -/
def clampConfig (config0 : RunConfig) : RunConfig :=
  if (clampLow config0).maxWorkers > 100 then
    { clampLow config0 with maxWorkers := 100 }
  else clampLow config0

/-- Go `NewExecutionEngine` (runner.go lines 138-176).  The second component
of the returned pair is the final state of the `RunConfig` object the
constructor worked on: Go receives `config` by pointer and clamps
`config.MaxWorkers` in place, so when the caller passed a non-nil config this
is the caller's own value after the call. -/
def NewExecutionEngine (tests : List Test) (configArg : Option RunConfig) :
    Except String ExecutionEngine × RunConfig :=
  if tests.length = 0 then
    (Except.error "no tests provided", configArg.getD DefaultRunConfig)
  else
    let config := clampConfig (configArg.getD DefaultRunConfig)
    match NewExecutionPlan tests with
    | Except.error e =>
      (Except.error ("failed to create execution plan: " ++ e), config)
    | Except.ok plan =>
      (Except.ok
        { tests := tests
          config := config
          plan := plan
          totalTests := int32 tests.length
          results := [] },
        config)

/-- Outcome of one `runTestLifecycle` call, with ghost observations of which
callbacks were invoked (the Go code discards the teardown error). -/
structure LifecycleOutcome where
  err : Option String
  executeInvoked : Bool
  teardownInvoked : Bool
deriving Repr

/-- The part of Go `runTestLifecycle` after a successful (or absent) Setup:
register the Teardown deferral, require and run Execute, wrap its error. -/
def lifecycleAfterSetup (t : Test) (attempt : Nat) : LifecycleOutcome :=
  let teardownRuns := t.teardown.isSome
  let _teardownErr := t.teardown.map (fun td => td attempt)
  match t.execute with
  | none =>
    { err := some "test has no Execute function"
      executeInvoked := false
      teardownInvoked := teardownRuns }
  | some ex =>
    match ex attempt with
    | some e =>
      { err := some ("execute failed: " ++ e)
        executeInvoked := true
        teardownInvoked := teardownRuns }
    | none =>
      { err := none
        executeInvoked := true
        teardownInvoked := teardownRuns }

/-- Go `runTestLifecycle` (runner.go lines 385-420): Setup failure
short-circuits (before the Teardown deferral is registered); the Teardown
error is logged and discarded; a missing Execute is an error; an Execute
error is wrapped.  The per-test context timeout is wall-clock and not
modeled. -/
def runTestLifecycle (t : Test) (attempt : Nat) : LifecycleOutcome :=
  match t.setup with
  | some s =>
    match s attempt with
    | some e =>
      { err := some ("setup failed: " ++ e)
        executeInvoked := false
        teardownInvoked := false }
    | none => lifecycleAfterSetup t attempt
  | none => lifecycleAfterSetup t attempt

/-- The `maxAttempts` computation at the top of Go `executeTest` (runner.go
lines 348-351). -/
def maxAttemptsOf (config : RunConfig) (t : Test) : Nat :=
  if config.enableRetry && decide (t.maxRetries > 0) then t.maxRetries + 1 else 1

/-- The `for attempt := 0; attempt < maxAttempts` loop of Go `executeTest`
(runner.go lines 354-381): `remaining` counts attempts left, `attempt` the
current index, `rc` the running `result.RetryCount` (assigned the attempt
index at the top of every retry attempt), `lastErr` the last failure.  The
backoff-with-jitter sleep is wall-clock and not modeled.  Returns the result
and the number of attempts actually made. -/
def executeTestLoop (config : RunConfig) (t : Test) :
    Nat → Nat → Nat → Option String → ExecutionResult × Nat
  | 0, attempt, rc, lastErr =>
    ({ testID := t.id
       status := TestStatus.failed
       errorMessage := lastErr.getD ""
       retryCount := rc }, attempt)
  | Nat.succ rem, attempt, rc, _lastErr =>
    let rc1 := if attempt > 0 then attempt else rc
    match (runTestLifecycle t attempt).err with
    | none =>
      ({ testID := t.id
         status := TestStatus.passed
         retryCount := rc1 }, attempt + 1)
    | some e => executeTestLoop config t rem (attempt + 1) rc1 (some e)

/-- Go `executeTest` (runner.go lines 342-382) as a pure function of the
config and the test: the `ExecutionResult` and the number of lifecycle
attempts made (the engine's `retryAttempts` counter is bumped once per
attempt after the first; see `engineExecuteTest`). -/
def executeTest (config : RunConfig) (t : Test) : ExecutionResult × Nat :=
  executeTestLoop config t (maxAttemptsOf config t) 0 0 none

/-- Go `shouldRunTest` (runner.go lines 423-436): every declared dependency
completed and none failed, per the engine's own marker sets. -/
def shouldRunTest (ee : ExecutionEngine) (t : Test) : Bool :=
  t.dependencies.all (fun d => !(ee.failedTestsList d) && ee.completedTests d)

/-- Go `recordResult` (runner.go lines 439-453): append the result and bump
the counter matching its status. -/
def recordResult (ee : ExecutionEngine) (result : ExecutionResult) :
    ExecutionEngine :=
  let ee1 := { ee with results := ee.results ++ [result] }
  match result.status with
  | TestStatus.passed => { ee1 with passedTests := add32 ee1.passedTests 1 }
  | TestStatus.failed => { ee1 with failedTests := add32 ee1.failedTests 1 }
  | TestStatus.skipped => { ee1 with skippedTests := add32 ee1.skippedTests 1 }
  | _ => ee1

/-- Go `skipTest` (runner.go lines 456-465). -/
def skipTest (ee : ExecutionEngine) (t : Test) (reason : String) :
    ExecutionEngine :=
  recordResult ee
    { testID := t.id
      status := TestStatus.skipped
      skipReason := reason }

/-- Go `markTestCompleted` (runner.go lines 468-472). -/
def markTestCompleted (ee : ExecutionEngine) (testID : String) :
    ExecutionEngine :=
  { ee with completedTests := setTrue ee.completedTests testID }

/-- Go `markTestFailed` (runner.go lines 475-479). -/
def markTestFailed (ee : ExecutionEngine) (testID : String) :
    ExecutionEngine :=
  { ee with failedTestsList := setTrue ee.failedTestsList testID }

/-- Run `executeTest` on the engine, bumping `retryAttempts` once per retry
attempt taken (in Go a sequence of `Add(1)` calls, collapsed here to one
wrapping addition of the same total). -/
def engineExecuteTest (ee : ExecutionEngine) (t : Test) :
    ExecutionEngine × ExecutionResult :=
  let ra := executeTest ee.config t
  ({ ee with retryAttempts := add32 ee.retryAttempts (Int.ofNat (ra.2 - 1)) },
    ra.1)

/-- One iteration of Go `runSequential`'s loop (runner.go lines 203-217):
skip when dependencies are unsatisfied, otherwise execute, record, and mark
the engine's completed/failed sets. -/
def runSeqStep (ee : ExecutionEngine) (t : Test) : ExecutionEngine :=
  if shouldRunTest ee t then
    let er := engineExecuteTest ee t
    let ee2 := recordResult er.1 er.2
    if er.2.status = TestStatus.failed then markTestFailed ee2 t.id
    else if er.2.status = TestStatus.passed then markTestCompleted ee2 t.id
    else ee2
  else skipTest ee t "dependencies failed"

/-- Go `runSequential` (runner.go lines 197-220): returns the engine state,
the returned result slice (Go `nil` on error, modeled as `[]`), and the
returned error. -/
def runSequential (ee : ExecutionEngine) :
    ExecutionEngine × List ExecutionResult × Option String :=
  match GetExecutionOrder ee.plan with
  | Except.error e => (ee, [], some e)
  | Except.ok ordered =>
    let ee1 := ordered.foldl runSeqStep ee
    (ee1, ee1.results, none)

/-- The loop of Go `runFailFast` (runner.go lines 249-270): like the
sequential loop but returning a hard error on the first Failed result.  The
`ctx.Done()` poll is a wall-clock cancellation check, never taken in the
untimed model. -/
def runFailFastLoop (ee : ExecutionEngine) :
    List Test → ExecutionEngine × List ExecutionResult × Option String
  | [] => (ee, ee.results, none)
  | t :: rest =>
    if shouldRunTest ee t then
      let er := engineExecuteTest ee t
      let ee2 := recordResult er.1 er.2
      if er.2.status = TestStatus.failed then
        let ee3 := markTestFailed ee2 t.id
        (ee3, ee3.results, some ("test failed: " ++ t.id))
      else runFailFastLoop (markTestCompleted ee2 t.id) rest
    else runFailFastLoop (skipTest ee t "dependencies failed") rest

/-- Go `runFailFast` (runner.go lines 243-273). -/
def runFailFast (ee : ExecutionEngine) :
    ExecutionEngine × List ExecutionResult × Option String :=
  match GetExecutionOrder ee.plan with
  | Except.error e => (ee, [], some e)
  | Except.ok ordered => runFailFastLoop ee ordered

/-- The body of Go `worker` for one test pulled from the work channel
(runner.go lines 292-307): check readiness, execute, record, and mark both
the engine sets and the plan sets. -/
def workerProcess (ee : ExecutionEngine) (t : Test) : ExecutionEngine :=
  if shouldRunTest ee t then
    let er := engineExecuteTest ee t
    let ee2 := recordResult er.1 er.2
    if er.2.status = TestStatus.passed then
      let ee3 := markTestCompleted ee2 t.id
      { ee3 with plan := MarkCompleted ee3.plan t.id }
    else if er.2.status = TestStatus.failed then
      let ee3 := markTestFailed ee2 t.id
      { ee3 with plan := MarkFailed ee3.plan t.id }
    else ee2
  else skipTest ee t "dependencies not met"

/-- Scheduler events of the parallel run model: the run context being
cancelled (global timeout expiry or `Stop`), one pass of the dispatcher loop
(runner.go lines 314-338), and one worker taking one item off the work
channel (runner.go lines 284-307). -/
inductive PStep where
  | cancel
  | dispatch
  | work
deriving DecidableEq, Repr

/-- State of an in-flight parallel run: the engine, the work channel
contents, the dispatcher's `dispatched` set, whether the run context is
cancelled, whether the dispatcher has returned (after which the channel is
closed), and how many workers are still alive. -/
structure ParState where
  ee : ExecutionEngine
  queue : List Test
  dispatched : List String
  cancelled : Bool
  dispatcherDone : Bool
  workersAlive : Int

/-- One scheduler step of the parallel run.  `dispatch` mirrors one
iteration of `dispatchTests`: exit on cancellation, otherwise push every
ready not-yet-dispatched test (the empty-ready iteration returns when all
tests are dispatched, else just sleeps).  `work` mirrors one iteration of
`worker`: a worker that pulls a test after cancellation skips that one test
with reason "context canceled" and returns; otherwise it processes the
test. -/
def readyUndispatched (s : ParState) : List Test :=
  (GetReadyTests s.ee.plan).filter (fun t => !(s.dispatched.contains t.id))

/-- One iteration of the dispatcher loop `dispatchTests` (runner.go lines
314-338): exit when the context is cancelled; with no ready undispatched
test, exit when everything is dispatched (else just sleep and poll again);
otherwise push every ready undispatched test and record it as
dispatched. -/
def parDispatch (s : ParState) : ParState :=
  if s.dispatcherDone then s
  else if s.cancelled then { s with dispatcherDone := true }
  else if (readyUndispatched s).length = 0 then
    if s.dispatched.length = s.ee.tests.length then
      { s with dispatcherDone := true }
    else s
  else
    { s with
        queue := s.queue ++ readyUndispatched s
        dispatched := s.dispatched ++ (readyUndispatched s).map (fun t => t.id) }

/-- One worker iteration (runner.go lines 284-307): take a test off the
channel; after cancellation, skip that test with reason "context canceled"
and return (the worker dies); otherwise process it. -/
def parWork (s : ParState) : ParState :=
  if s.workersAlive ≤ 0 then s
  else
    match s.queue with
    | [] => s
    | t :: rest =>
      if s.cancelled then
        { s with
            ee := skipTest s.ee t "context canceled"
            queue := rest
            workersAlive := s.workersAlive - 1 }
      else { s with ee := workerProcess s.ee t, queue := rest }

/-- One scheduler step of the parallel run. -/
def parStep (s : ParState) : PStep → ParState
  | PStep.cancel => { s with cancelled := true }
  | PStep.dispatch => parDispatch s
  | PStep.work => parWork s

/-- Initial state of a parallel run: empty channel, nothing dispatched,
`MaxWorkers` workers started. -/
def parInit (ee : ExecutionEngine) : ParState :=
  { ee := ee
    queue := []
    dispatched := []
    cancelled := false
    dispatcherDone := false
    workersAlive := ee.config.maxWorkers }

/-- `wg.Wait()` has returned: the dispatcher has exited (closing the
channel) and every worker has exited — either the channel is drained or all
workers returned early after cancellation. -/
def parFinished (s : ParState) : Bool :=
  s.dispatcherDone && (s.queue.isEmpty || s.workersAlive ≤ 0)

/-- The state of a parallel run after the scheduler events `sched`. -/
def parRunState (ee : ExecutionEngine) (sched : List PStep) : ParState :=
  sched.foldl parStep (parInit ee)

/-- Go `runParallel` (runner.go lines 223-240) under an explicit scheduler
interleaving: `none` when the schedule leaves the run unfinished (no return
happens) — `runParallel` itself never returns an error. -/
def runParallel (ee : ExecutionEngine) (sched : List PStep) :
    Option (ExecutionEngine × List ExecutionResult × Option String) :=
  if parFinished (parRunState ee sched) then
    some ((parRunState ee sched).ee, (parRunState ee sched).ee.results, none)
  else none

/-- Go `Run` (runner.go lines 179-194): dispatch on the configured mode, in
the source's case order; `runComprehensive` (lines 276-278) is
`runParallel`.  The schedule argument is consumed only by the concurrent
modes. -/
def Run (ee : ExecutionEngine) (sched : List PStep) :
    Option (ExecutionEngine × List ExecutionResult × Option String) :=
  if ee.config.mode = executionModeSequential then some (runSequential ee)
  else if ee.config.mode = executionModeParallel then runParallel ee sched
  else if ee.config.mode = executionModeFailFast then some (runFailFast ee)
  else if ee.config.mode = executionModeComprehensive then runParallel ee sched
  else some (ee, [], some ("unknown execution mode: " ++ ee.config.mode))

/-- Go `GetMetrics` (runner.go lines 500-508): a read of the five atomic
counters. -/
def GetMetrics (ee : ExecutionEngine) : TestMetrics :=
  { total := ee.totalTests
    passed := ee.passedTests
    failed := ee.failedTests
    skipped := ee.skippedTests
    retries := ee.retryAttempts }

/-! ### Shared example data for the concrete claims -/

/-- A callback that always succeeds. -/
def exExecOk : Nat → Option String := fun _ => none

/-- A callback that always fails. -/
def exExecFail : Nat → Option String := fun _ => some "boom"

/-- A dependency-free task whose Execute succeeds. -/
def exTaskA : Test := { id := "A", execute := some exExecOk }

/-- A dependency-free task whose Execute always fails. -/
def exTaskAFail : Test := { id := "A", execute := some exExecFail }

/-- A task depending on `"A"` whose Execute succeeds. -/
def exTaskB : Test := { id := "B", dependencies := ["A"], execute := some exExecOk }

/-- A sequential-mode configuration with an in-range worker count. -/
def exSeqConfig : RunConfig :=
  { mode := executionModeSequential, maxWorkers := 4 }

/-- A parallel-mode configuration with one worker. -/
def exParConfig : RunConfig :=
  { mode := executionModeParallel, maxWorkers := 1 }

/-- A configuration whose mode is none of the four known modes. -/
def exBogusConfig : RunConfig := { mode := "bogus", maxWorkers := 5 }

/-- A configuration with an out-of-range (too small) worker count. -/
def exLowConfig : RunConfig :=
  { mode := executionModeSequential, maxWorkers := 0 }

/-- A callback failing on attempts 0 and 1 and succeeding from attempt 2 on. -/
def exFlakyExec : Nat → Option String :=
  fun n => if n < 2 then some "flaky" else none

/-- A task with `MaxRetries = 2` whose Execute fails twice, then succeeds. -/
def exFlaky : Test := { id := "R", maxRetries := 2, execute := some exFlakyExec }

/-- `exSeqConfig` with retries enabled. -/
def exRetryOnConfig : RunConfig := { exSeqConfig with enableRetry := true }

/-- `exSeqConfig` with retries disabled. -/
def exRetryOffConfig : RunConfig := { exSeqConfig with enableRetry := false }

/-- A task whose Execute succeeds but whose Teardown fails. -/
def exTeardownTask : Test :=
  { id := "T", execute := some exExecOk,
    teardown := some (fun _ => some "teardown boom") }

/-- The engine built by `NewExecutionEngine [exTaskA] (some exBogusConfig)`,
spelled out. -/
def exBogusEngine : ExecutionEngine :=
  { tests := [exTaskA]
    config := clampConfig exBogusConfig
    plan :=
      { tests := [exTaskA]
        dependencies := depsMap [exTaskA]
        completed := fun _ => false
        failed := fun _ => false }
    totalTests := int32 (List.length [exTaskA])
    results := [] }

/-- The engine built by `NewExecutionEngine [exTaskA] (some exSeqConfig)`,
spelled out. -/
def exSeqEngineA : ExecutionEngine :=
  { tests := [exTaskA]
    config := clampConfig exSeqConfig
    plan :=
      { tests := [exTaskA]
        dependencies := depsMap [exTaskA]
        completed := fun _ => false
        failed := fun _ => false }
    totalTests := int32 (List.length [exTaskA])
    results := [] }

/-- A task depending on `"B"`: half of a two-task dependency cycle. -/
def exCycA : Test := { id := "A", dependencies := ["B"], execute := some exExecOk }

/-- A task depending on `"A"`: the other half of the cycle. -/
def exCycB : Test := { id := "B", dependencies := ["A"], execute := some exExecOk }

/-- A task whose single dependency ID `"ghost"` matches no task. -/
def exDangling : Test :=
  { id := "D", dependencies := ["ghost"], execute := some exExecOk }

/-- The execution plan of the dangling-dependency task set. -/
def exDanglingPlan : ExecutionPlan :=
  { tests := [exDangling]
    dependencies := depsMap [exDangling]
    completed := fun _ => false
    failed := fun _ => false }

/-- The `ExecutionResult` recorded by `skipTest` for test `t` with the given
reason. -/
def skippedResult (t : Test) (reason : String) : ExecutionResult :=
  { testID := t.id, status := TestStatus.skipped, skipReason := reason }

/-- Quantification harness for C10: an arbitrary interleaving of the
engine's `plan.MarkCompleted` (flag `true`) and `plan.MarkFailed` (flag
`false`) calls. -/
def applyMarks (ep : ExecutionPlan) : List (Bool × String) → ExecutionPlan
  | [] => ep
  | (true, i) :: rest => applyMarks (MarkCompleted ep i) rest
  | (false, i) :: rest => applyMarks (MarkFailed ep i) rest

/-- Invariant of the parallel run model used for C10 and C5: the engine's
test list and the plan's test list stay the original task list, the work
queue only ever holds tasks from that list, and (for a `d` that is not a
task ID) the plan never marks `d` completed. -/
def ParQueueInv (tests0 : List Test) (s : ParState) : Prop :=
  s.ee.tests = tests0 ∧ s.ee.plan.tests = tests0 ∧
    ∀ t, t ∈ s.queue → t ∈ tests0

/-- Coverage invariant of an uncancelled parallel run (for C5): the run is
not cancelled, workers are alive, the dispatched set is duplicate-free and
drawn from the task list, every dispatched task is still queued or already
has a result, and once the dispatcher has exited every task was
dispatched. -/
def ParCoverInv (tests0 : List Test) (s : ParState) : Prop :=
  s.cancelled = false ∧ 0 < s.workersAlive ∧ s.dispatched.Nodup ∧
  (∀ i ∈ s.dispatched, i ∈ tests0.map (fun t => t.id)) ∧
  (∀ i ∈ s.dispatched, i ∈ s.queue.map (fun t => t.id) ∨
    i ∈ s.ee.results.map (fun r => r.testID)) ∧
  (s.dispatcherDone = true → ∀ t ∈ tests0, t.id ∈ s.dispatched)

/-- The Kahn-loop invariant (for C5's sequential coverage): over the
concatenation `L` of the emitted order and the pending queue, every element
is a task of the set, no task ID repeats, and a task with dependencies that
has already been enqueued has a non-positive in-degree counter (so the
exact-zero test can never re-enqueue it). -/
def KahnInv (tests : List Test) (ind : String → Int) (L : List Test) : Prop :=
  (∀ u ∈ L, u ∈ tests) ∧ (L.map (fun t => t.id)).Nodup ∧
  (∀ u ∈ tests, u.dependencies ≠ [] → u.id ∈ L.map (fun t => t.id) →
    ind u.id ≤ 0)

/-- The engine built by `NewExecutionEngine [exTaskA] (some exParConfig)`,
spelled out. -/
def exParEngineA : ExecutionEngine :=
  { tests := [exTaskA]
    config := clampConfig exParConfig
    plan :=
      { tests := [exTaskA]
        dependencies := depsMap [exTaskA]
        completed := fun _ => false
        failed := fun _ => false }
    totalTests := int32 (List.length [exTaskA])
    results := [] }

/-! ### Helper lemmas -/

theorem maxAttemptsOf_pos (config : RunConfig) (t : Test) :
    1 ≤ maxAttemptsOf config t := by
  unfold maxAttemptsOf
  split
  · omega
  · omega

theorem maxAttemptsOf_enabled (config : RunConfig) (t : Test)
    (h : config.enableRetry = true) :
    maxAttemptsOf config t = t.maxRetries + 1 := by
  unfold maxAttemptsOf
  cases hn : t.maxRetries with
  | zero => simp [h, hn]
  | succ n => simp [h, hn]

theorem maxAttemptsOf_disabled (config : RunConfig) (t : Test)
    (h : config.enableRetry = false) :
    maxAttemptsOf config t = 1 := by
  unfold maxAttemptsOf
  simp [h]

theorem executeTestLoop_attempts_le (config : RunConfig) (t : Test) :
    ∀ (rem attempt rc : Nat) (lastErr : Option String),
      (executeTestLoop config t rem attempt rc lastErr).2 ≤ attempt + rem := by
  intro rem
  induction rem with
  | zero => intro attempt rc lastErr; simp [executeTestLoop]
  | succ n ih =>
    intro attempt rc lastErr
    cases hL : (runTestLifecycle t attempt).err with
    | none => simp [executeTestLoop, hL]
    | some e =>
      simp only [executeTestLoop, hL]
      have := ih (attempt + 1) (if attempt > 0 then attempt else rc) (some e)
      omega

theorem executeTestLoop_failed_attempts (config : RunConfig) (t : Test) :
    ∀ (rem attempt rc : Nat) (lastErr : Option String),
      (executeTestLoop config t rem attempt rc lastErr).1.status =
        TestStatus.failed →
      (executeTestLoop config t rem attempt rc lastErr).2 = attempt + rem := by
  intro rem
  induction rem with
  | zero => intro attempt rc lastErr _; simp [executeTestLoop]
  | succ n ih =>
    intro attempt rc lastErr
    cases hL : (runTestLifecycle t attempt).err with
    | none => intro h; simp [executeTestLoop, hL] at h
    | some e =>
      intro h
      simp only [executeTestLoop, hL] at h ⊢
      have := ih (attempt + 1) (if attempt > 0 then attempt else rc) (some e) h
      omega

theorem clampLow_fields (c : RunConfig) :
    (clampLow c).mode = c.mode ∧
    (clampLow c).globalTimeout = c.globalTimeout ∧
    (clampLow c).testTimeout = c.testTimeout ∧
    (clampLow c).enableRetry = c.enableRetry ∧
    (clampLow c).isolateTests = c.isolateTests := by
  unfold clampLow
  split <;> exact ⟨rfl, rfl, rfl, rfl, rfl⟩

theorem clampConfig_fields (c : RunConfig) :
    (clampConfig c).mode = c.mode ∧
    (clampConfig c).globalTimeout = c.globalTimeout ∧
    (clampConfig c).testTimeout = c.testTimeout ∧
    (clampConfig c).enableRetry = c.enableRetry ∧
    (clampConfig c).isolateTests = c.isolateTests := by
  have h := clampLow_fields c
  unfold clampConfig
  split
  · exact ⟨h.1, h.2.1, h.2.2.1, h.2.2.2.1, h.2.2.2.2⟩
  · exact h

theorem clampConfig_mode (c : RunConfig) : (clampConfig c).mode = c.mode :=
  (clampConfig_fields c).1

theorem clampConfig_in_range (c : RunConfig) (h1 : 1 ≤ c.maxWorkers)
    (h100 : c.maxWorkers ≤ 100) : clampConfig c = c := by
  have hlow : clampLow c = c := by
    unfold clampLow
    rw [if_neg (by omega)]
  unfold clampConfig
  rw [hlow]
  rw [if_neg (by omega)]

theorem newEngine_snd (tests : List Test) (config : RunConfig) :
    (NewExecutionEngine tests (some config)).2 =
      if tests.length = 0 then config else clampConfig config := by
  unfold NewExecutionEngine
  by_cases h : tests.length = 0
  · simp [h]
  · simp only [h, if_neg h, Option.getD]
    cases NewExecutionPlan tests <;> rfl

theorem newEngine_ok_inv (tests : List Test) (config : RunConfig)
    (ee : ExecutionEngine)
    (h : (NewExecutionEngine tests (some config)).1 = Except.ok ee) :
    ee.tests = tests ∧ ee.config = clampConfig config ∧
    NewExecutionPlan tests = Except.ok ee.plan ∧
    ee.plan.tests = tests ∧
    ee.totalTests = int32 tests.length ∧ ee.passedTests = 0 ∧
    ee.failedTests = 0 ∧ ee.skippedTests = 0 ∧ ee.retryAttempts = 0 ∧
    ee.results = [] ∧ ee.completedTests = (fun _ => false) ∧
    ee.failedTestsList = (fun _ => false) ∧
    ee.plan.completed = (fun _ => false) ∧
    ee.plan.failed = (fun _ => false) := by
  unfold NewExecutionEngine at h
  by_cases hlen : tests.length = 0
  · simp [hlen] at h
  · simp only [if_neg hlen, Option.getD] at h
    cases hp : NewExecutionPlan tests with
    | error e => rw [hp] at h; simp at h
    | ok plan =>
      rw [hp] at h
      simp only [Except.ok.injEq] at h
      subst h
      have hplan : plan.tests = tests ∧ plan.completed = (fun _ => false) ∧
          plan.failed = (fun _ => false) := by
        unfold NewExecutionPlan at hp
        cases hd : detectCircularDependencies tests with
        | none =>
          rw [hd] at hp
          simp only [Except.ok.injEq] at hp
          rw [← hp]
          exact ⟨rfl, rfl, rfl⟩
        | some e => rw [hd] at hp; simp at hp
      dsimp only
      refine ⟨rfl, rfl, ?_, hplan.1, rfl, rfl, rfl, rfl, rfl, rfl, rfl, rfl,
        hplan.2.1, hplan.2.2⟩
      rfl

/-! ### Claim theorems -/

/-- C1: the claim states that `GetExecutionOrder` succeeds on every acyclic
task set whose dependency IDs all resolve, returning a full topological
order.  The code refutes this: for the two-task chain `A`, `B depends on A`
— accepted as acyclic by plan construction (first conjunct; by
`detect_complete` below the DFS returning no error means the dependency
edges are acyclic) and with every dependency ID resolving to a task in the
set (second conjunct) — `GetExecutionOrder` returns the error "circular
dependency detected" (third conjunct): `buildInDegree` increments
`inDegree[dep]` (the number of dependents) while the Kahn loop decrements
`inDegree[test.ID]` once per resolved dependency of `test`, so `B` (zero
dependents, one dependency) reaches in-degree `-1`, is never enqueued, and
the defensive length check misfires. -/
theorem getExecutionOrder_rejects_acyclic_dependency_chain :
    detectCircularDependencies [exTaskA, exTaskB] = none ∧
    ([exTaskA, exTaskB].all (fun t =>
      t.dependencies.all (fun d =>
        ([exTaskA, exTaskB].map (fun u => u.id)).contains d)) = true) ∧
    (NewExecutionPlan [exTaskA, exTaskB]).map
        (fun p => (GetExecutionOrder p).map (fun l => l.map (fun t => t.id))) =
      Except.ok (Except.error "circular dependency detected") :=
  ⟨rfl, rfl, rfl⟩

/-- C2: the claim states that in a sequential run where `A` (no
dependencies) fails and `B` depends on `A`, `B` ends Skipped with a
failed-dependencies reason and its Execute is never invoked.  The code
refutes this upstream: `runSequential` first calls `GetExecutionOrder`,
which (see C1) mis-reports the acyclic chain as cyclic, so the whole run
aborts with the error "circular dependency detected", returns a nil result
slice, and no task — `B` included — receives any result at all. -/
theorem runSequential_fails_instead_of_skipping_dependent :
    (NewExecutionEngine [exTaskAFail, exTaskB] (some exSeqConfig)).1.map
        (fun ee => ((runSequential ee).2.1, (runSequential ee).2.2)) =
      Except.ok ([], some "circular dependency detected") :=
  rfl

/-- C3: `executeTest` has an attempt budget of `1 + MaxRetries` when retries
are enabled in the config (also for `MaxRetries = 0`), and `1` when they are
disabled; the budget bounds the attempts made, a failed result means the
budget was consumed exactly; the flaky task (fails twice, succeeds third,
`MaxRetries = 2`) ends Passed with `RetryCount = 2` after 3 attempts when
retries are on, and Failed after exactly 1 attempt when they are off. -/
theorem executeTest_retry_accounting :
    (∀ (config : RunConfig) (t : Test), config.enableRetry = true →
      maxAttemptsOf config t = t.maxRetries + 1) ∧
    (∀ (config : RunConfig) (t : Test), config.enableRetry = false →
      maxAttemptsOf config t = 1) ∧
    (∀ (config : RunConfig) (t : Test),
      (executeTest config t).2 ≤ maxAttemptsOf config t) ∧
    (∀ (config : RunConfig) (t : Test),
      (executeTest config t).1.status = TestStatus.failed →
      (executeTest config t).2 = maxAttemptsOf config t) ∧
    executeTest exRetryOnConfig exFlaky =
      ({ testID := "R", status := TestStatus.passed, errorMessage := "",
         retryCount := 2, output := "", skipReason := "" }, 3) ∧
    executeTest exRetryOffConfig exFlaky =
      ({ testID := "R", status := TestStatus.failed,
         errorMessage := "execute failed: flaky",
         retryCount := 0, output := "", skipReason := "" }, 1) := by
  refine ⟨maxAttemptsOf_enabled, maxAttemptsOf_disabled, ?_, ?_, rfl, rfl⟩
  · intro config t
    have := executeTestLoop_attempts_le config t (maxAttemptsOf config t) 0 0 none
    simpa [executeTest] using this
  · intro config t h
    have := executeTestLoop_failed_attempts config t (maxAttemptsOf config t)
      0 0 none h
    simpa [executeTest] using this

/-- C3 witness: the retry-accounting theorem applied at the flaky task with
retries enabled and disabled. -/
theorem executeTest_retry_accounting_witness :
    maxAttemptsOf exRetryOnConfig exFlaky = 3 ∧
    maxAttemptsOf exRetryOffConfig exFlaky = 1 ∧
    (executeTest exRetryOffConfig exFlaky).2 =
      maxAttemptsOf exRetryOffConfig exFlaky :=
  ⟨executeTest_retry_accounting.1 exRetryOnConfig exFlaky rfl,
   executeTest_retry_accounting.2.1 exRetryOffConfig exFlaky rfl,
   executeTest_retry_accounting.2.2.2.1 exRetryOffConfig exFlaky rfl⟩

/-- C6 counterexample: the claim states that `NewExecutionEngine` returns an
error for a config whose mode is unknown.  It does not: construction with
mode "bogus" succeeds (the mode is never inspected before `Run`). -/
theorem newExecutionEngine_accepts_unknown_mode :
    (NewExecutionEngine [exTaskA] (some exBogusConfig)).1.isOk = true :=
  rfl

/-- C6 amended: an unknown execution mode is surfaced as an error at the
start of `Run` — before any task executes, with the engine untouched and a
nil result slice — while construction itself only rejects an empty task
list and circular dependencies. -/
theorem unknown_mode_error_surfaced_at_run
    (tests : List Test) (config : RunConfig) (ee : ExecutionEngine)
    (sched : List PStep)
    (h1 : config.mode ≠ executionModeSequential)
    (h2 : config.mode ≠ executionModeParallel)
    (h3 : config.mode ≠ executionModeFailFast)
    (h4 : config.mode ≠ executionModeComprehensive)
    (h : (NewExecutionEngine tests (some config)).1 = Except.ok ee) :
    Run ee sched =
      some (ee, [], some ("unknown execution mode: " ++ config.mode)) := by
  have hconf := (newEngine_ok_inv tests config ee h).2.1
  have hmode : ee.config.mode = config.mode := by
    rw [hconf]; exact clampConfig_mode config
  unfold Run
  rw [hmode]
  rw [if_neg h1, if_neg h2, if_neg h3, if_neg h4]

/-- C6 witness: the amended theorem applied at the concrete unknown-mode
engine. -/
theorem unknown_mode_error_surfaced_at_run_witness :
    Run exBogusEngine [] =
      some (exBogusEngine, [], some ("unknown execution mode: " ++ "bogus")) :=
  unknown_mode_error_surfaced_at_run [exTaskA] exBogusConfig exBogusEngine []
    (by decide) (by decide) (by decide) (by decide) rfl

/-- C7 counterexample: the claim states the engine never mutates the
caller-supplied RunConfig, including when `MaxWorkers` is out of range.  In
fact `NewExecutionEngine` clamps `config.MaxWorkers` through the caller's
pointer: after constructing with `MaxWorkers = 0` the caller's config holds
`MaxWorkers = 1`. -/
theorem newExecutionEngine_mutates_callers_config :
    (NewExecutionEngine [exTaskA] (some exLowConfig)).2.maxWorkers = 1 ∧
    exLowConfig.maxWorkers = 0 :=
  ⟨rfl, rfl⟩

/-- C7 amended: the engine never mutates the caller's Task values, and the
only mutation of the caller's RunConfig is the in-place clamping of
`MaxWorkers` to [1,100]: a config whose `MaxWorkers` is already in range is
returned entirely unchanged, every field other than `MaxWorkers` is always
unchanged, and the engine stores the caller's Task values as supplied. -/
theorem engine_mutation_limited_to_maxWorkers_clamp
    (tests : List Test) (config : RunConfig) :
    (1 ≤ config.maxWorkers → config.maxWorkers ≤ 100 →
      (NewExecutionEngine tests (some config)).2 = config) ∧
    ((NewExecutionEngine tests (some config)).2.mode = config.mode ∧
     (NewExecutionEngine tests (some config)).2.globalTimeout =
       config.globalTimeout ∧
     (NewExecutionEngine tests (some config)).2.testTimeout =
       config.testTimeout ∧
     (NewExecutionEngine tests (some config)).2.enableRetry =
       config.enableRetry ∧
     (NewExecutionEngine tests (some config)).2.isolateTests =
       config.isolateTests) ∧
    (∀ ee, (NewExecutionEngine tests (some config)).1 = Except.ok ee →
      ee.tests = tests) := by
  have hsnd := newEngine_snd tests config
  refine ⟨?_, ?_, ?_⟩
  · intro hlo hhi
    rw [hsnd]
    by_cases hlen : tests.length = 0
    · rw [if_pos hlen]
    · rw [if_neg hlen]
      exact clampConfig_in_range config hlo hhi
  · rw [hsnd]
    by_cases hlen : tests.length = 0
    · rw [if_pos hlen]
      exact ⟨rfl, rfl, rfl, rfl, rfl⟩
    · rw [if_neg hlen]
      exact clampConfig_fields config
  · intro ee h
    exact (newEngine_ok_inv tests config ee h).1

/-- C7 witness: the amended theorem applied at an in-range config and at the
out-of-range config of the counterexample. -/
theorem engine_mutation_limited_to_maxWorkers_clamp_witness :
    (NewExecutionEngine [exTaskA] (some exSeqConfig)).2 = exSeqConfig ∧
    (NewExecutionEngine [exTaskA] (some exLowConfig)).2.mode =
      exLowConfig.mode :=
  ⟨(engine_mutation_limited_to_maxWorkers_clamp [exTaskA] exSeqConfig).1
      (by decide) (by decide),
   (engine_mutation_limited_to_maxWorkers_clamp [exTaskA] exLowConfig).2.1.1⟩

/-- C8: a Teardown error never affects the pass/fail verdict: when Setup (if
present) and Execute succeed on an attempt, `runTestLifecycle` returns no
error whatever Teardown does; the lifecycle error is entirely independent of
the Teardown callback; and a task whose Execute succeeds immediately ends
Passed regardless of its Teardown. -/
theorem teardown_error_never_flips_verdict :
    (∀ (t : Test) (attempt : Nat),
      (∀ s, t.setup = some s → s attempt = none) →
      (∃ ex, t.execute = some ex ∧ ex attempt = none) →
      (runTestLifecycle t attempt).err = none) ∧
    (∀ (t : Test) (attempt : Nat) (td1 td2 : Nat → Option String),
      (runTestLifecycle { t with teardown := some td1 } attempt).err =
        (runTestLifecycle { t with teardown := some td2 } attempt).err) ∧
    (∀ (config : RunConfig) (t : Test) (ex : Nat → Option String),
      t.setup = none → t.execute = some ex → ex 0 = none →
      (executeTest config t).1.status = TestStatus.passed) := by
  refine ⟨?_, ?_, ?_⟩
  · intro t attempt hsetup hex
    obtain ⟨ex, hexe, hex0⟩ := hex
    have hafter : (lifecycleAfterSetup t attempt).err = none := by
      unfold lifecycleAfterSetup
      simp only [hexe, hex0]
    unfold runTestLifecycle
    cases hs : t.setup with
    | none => exact hafter
    | some s =>
      have hSA := hsetup s hs
      simp only [hSA]
      exact hafter
  · intro t attempt td1 td2
    unfold runTestLifecycle lifecycleAfterSetup
    cases t.setup with
    | none => cases t.execute with
      | none => rfl
      | some ex => cases ex attempt <;> rfl
    | some s => cases s attempt with
      | none => cases t.execute with
        | none => rfl
        | some ex => cases ex attempt <;> rfl
      | some e => rfl
  · intro config t ex hs he hex0
    have h1 : 1 ≤ maxAttemptsOf config t := maxAttemptsOf_pos config t
    obtain ⟨m, hm⟩ : ∃ m, maxAttemptsOf config t = m + 1 := by
      cases hma : maxAttemptsOf config t with
      | zero => rw [hma] at h1; omega
      | succ m => exact ⟨m, rfl⟩
    have hlife : (runTestLifecycle t 0).err = none := by
      unfold runTestLifecycle lifecycleAfterSetup
      simp only [hs, he, hex0]
    unfold executeTest
    rw [hm]
    unfold executeTestLoop
    rw [hlife]

/-- C8 witness: the theorem applied at a task whose Teardown always errors:
its lifecycle reports no error and it passes. -/
theorem teardown_error_never_flips_verdict_witness :
    (runTestLifecycle exTeardownTask 0).err = none ∧
    (executeTest exSeqConfig exTeardownTask).1.status = TestStatus.passed :=
  ⟨teardown_error_never_flips_verdict.1 exTeardownTask 0
      (fun s hs => by simp [exTeardownTask] at hs)
      ⟨exExecOk, rfl, rfl⟩,
   teardown_error_never_flips_verdict.2.2 exSeqConfig exTeardownTask exExecOk
      rfl rfl rfl⟩

/-! ### Counter-preservation lemmas (for C9) -/

theorem int32_small (k : Nat) (h : k < 2 ^ 31) : int32 (k : Int) = k := by
  unfold int32
  rw [Int.bmod_def]
  have h2 : (k : Int) % ((2 ^ 32 : Nat) : Int) = k := by
    rw [Int.emod_eq_of_lt] <;> omega
  rw [h2, if_pos]
  omega

theorem recordResult_total (ee : ExecutionEngine) (r : ExecutionResult) :
    (recordResult ee r).totalTests = ee.totalTests := by
  cases hst : r.status <;> simp [recordResult, hst]

theorem skipTest_total (ee : ExecutionEngine) (t : Test) (reason : String) :
    (skipTest ee t reason).totalTests = ee.totalTests :=
  recordResult_total ee _

theorem engineExecuteTest_total (ee : ExecutionEngine) (t : Test) :
    (engineExecuteTest ee t).1.totalTests = ee.totalTests :=
  rfl

theorem runSeqStep_total (ee : ExecutionEngine) (t : Test) :
    (runSeqStep ee t).totalTests = ee.totalTests := by
  unfold runSeqStep
  split
  · dsimp only
    split
    · simp [markTestFailed, recordResult_total, engineExecuteTest_total]
    · split
      · simp [markTestCompleted, recordResult_total, engineExecuteTest_total]
      · simp [recordResult_total, engineExecuteTest_total]
  · exact skipTest_total ee t _

theorem runSeqFold_total (l : List Test) :
    ∀ ee : ExecutionEngine, (l.foldl runSeqStep ee).totalTests = ee.totalTests := by
  induction l with
  | nil => intro ee; rfl
  | cons t rest ih =>
    intro ee
    rw [List.foldl_cons, ih, runSeqStep_total]

theorem runSequential_total (ee : ExecutionEngine) :
    (runSequential ee).1.totalTests = ee.totalTests := by
  unfold runSequential
  cases h : GetExecutionOrder ee.plan with
  | error e => rfl
  | ok ordered => exact runSeqFold_total ordered ee

theorem runFailFastLoop_total (l : List Test) :
    ∀ ee : ExecutionEngine,
      (runFailFastLoop ee l).1.totalTests = ee.totalTests := by
  induction l with
  | nil => intro ee; rfl
  | cons t rest ih =>
    intro ee
    unfold runFailFastLoop
    split
    · dsimp only
      split
      · simp [markTestFailed, recordResult_total, engineExecuteTest_total]
      · rw [ih]
        simp [markTestCompleted, recordResult_total, engineExecuteTest_total]
    · rw [ih, skipTest_total]

theorem runFailFast_total (ee : ExecutionEngine) :
    (runFailFast ee).1.totalTests = ee.totalTests := by
  unfold runFailFast
  cases h : GetExecutionOrder ee.plan with
  | error e => rfl
  | ok ordered => exact runFailFastLoop_total ordered ee

theorem workerProcess_total (ee : ExecutionEngine) (t : Test) :
    (workerProcess ee t).totalTests = ee.totalTests := by
  unfold workerProcess
  split
  · dsimp only
    split
    · simp [markTestCompleted, recordResult_total, engineExecuteTest_total]
    · split
      · simp [markTestFailed, recordResult_total, engineExecuteTest_total]
      · simp [recordResult_total, engineExecuteTest_total]
  · exact skipTest_total ee t _

theorem parStep_total (s : ParState) (p : PStep) :
    (parStep s p).ee.totalTests = s.ee.totalTests := by
  cases p with
  | cancel => rfl
  | dispatch =>
    show (parDispatch s).ee.totalTests = s.ee.totalTests
    unfold parDispatch
    split
    · rfl
    · split
      · rfl
      · split
        · split <;> rfl
        · rfl
  | work =>
    show (parWork s).ee.totalTests = s.ee.totalTests
    unfold parWork
    split
    · rfl
    · split
      · rfl
      · split
        · exact skipTest_total s.ee _ _
        · exact workerProcess_total s.ee _

theorem parFold_total (sched : List PStep) :
    ∀ s : ParState,
      (sched.foldl parStep s).ee.totalTests = s.ee.totalTests := by
  induction sched with
  | nil => intro s; rfl
  | cons p rest ih =>
    intro s
    rw [List.foldl_cons, ih, parStep_total]

theorem runParallel_total (ee : ExecutionEngine) (sched : List PStep)
    (r : ExecutionEngine × List ExecutionResult × Option String)
    (h : runParallel ee sched = some r) :
    r.1.totalTests = ee.totalTests := by
  unfold runParallel at h
  split at h
  · simp only [Option.some.injEq] at h
    rw [← h]
    exact parFold_total sched (parInit ee)
  · exact absurd h (by simp)

theorem Run_total (ee : ExecutionEngine) (sched : List PStep)
    (r : ExecutionEngine × List ExecutionResult × Option String)
    (h : Run ee sched = some r) : r.1.totalTests = ee.totalTests := by
  unfold Run at h
  split_ifs at h
  · simp only [Option.some.injEq] at h
    rw [← h]
    exact runSequential_total ee
  · exact runParallel_total ee sched r h
  · simp only [Option.some.injEq] at h
    rw [← h]
    exact runFailFast_total ee
  · exact runParallel_total ee sched r h
  · simp only [Option.some.injEq] at h
    rw [← h]

/-- C9: `GetMetrics().Total` always equals the (int32-wrapped) number of
tasks handed to `NewExecutionEngine` — the counter is stored once at
construction and preserved by every modeled operation (result recording,
skipping, markers, per-test execution, whole sequential/fail-fast runs,
every parallel scheduler step, and any completed `Run`); for task counts
below 2^31 the wrap is the identity, so Total literally equals the task
count.  `GetMetrics` itself is a pure read (five atomic loads), so two
calls with no intervening operation coincide in all five fields. -/
theorem getMetrics_total_invariant :
    (∀ (tests : List Test) (config : RunConfig) (ee : ExecutionEngine),
      (NewExecutionEngine tests (some config)).1 = Except.ok ee →
      (GetMetrics ee).total = int32 tests.length ∧
      (tests.length < 2 ^ 31 → (GetMetrics ee).total = tests.length)) ∧
    (∀ (ee : ExecutionEngine) (r : ExecutionResult),
      (GetMetrics (recordResult ee r)).total = (GetMetrics ee).total) ∧
    (∀ (ee : ExecutionEngine) (t : Test) (reason : String),
      (GetMetrics (skipTest ee t reason)).total = (GetMetrics ee).total) ∧
    (∀ ee : ExecutionEngine,
      (GetMetrics (runSequential ee).1).total = (GetMetrics ee).total) ∧
    (∀ ee : ExecutionEngine,
      (GetMetrics (runFailFast ee).1).total = (GetMetrics ee).total) ∧
    (∀ (s : ParState) (p : PStep),
      (GetMetrics (parStep s p).ee).total = (GetMetrics s.ee).total) ∧
    (∀ (ee : ExecutionEngine) (sched : List PStep) r,
      Run ee sched = some r →
      (GetMetrics r.1).total = (GetMetrics ee).total) ∧
    (∀ ee : ExecutionEngine, GetMetrics ee = GetMetrics ee) := by
  refine ⟨?_, ?_, ?_, ?_, ?_, ?_, ?_, ?_⟩
  · intro tests config ee h
    have htot := (newEngine_ok_inv tests config ee h).2.2.2.2.1
    constructor
    · exact htot
    · intro hlt
      show ee.totalTests = (tests.length : Int)
      rw [htot]
      exact int32_small tests.length hlt
  · intro ee r; exact recordResult_total ee r
  · intro ee t reason; exact skipTest_total ee t reason
  · intro ee; exact runSequential_total ee
  · intro ee; exact runFailFast_total ee
  · intro s p; exact parStep_total s p
  · intro ee sched r h; exact Run_total ee sched r h
  · intro ee; rfl

set_option maxRecDepth 4000 in
/-- C9 witness: the invariant applied at a one-task engine: Total is 1 at
construction and unchanged by a sequential run. -/
theorem getMetrics_total_invariant_witness :
    (GetMetrics exSeqEngineA).total = ([exTaskA] : List Test).length ∧
    (GetMetrics (runSequential exSeqEngineA).1).total =
      (GetMetrics exSeqEngineA).total :=
  ⟨(getMetrics_total_invariant.1 [exTaskA] exSeqConfig exSeqEngineA rfl).2
      (by decide),
   getMetrics_total_invariant.2.2.2.1 exSeqEngineA⟩

/-! ### DFS cycle-detection correctness (for C4, C10, and the acyclicity
side conditions of C1) -/

theorem setTrue_self (m : String → Bool) (k : String) : setTrue m k k = true := by
  simp [setTrue]

theorem setTrue_other (m : String → Bool) (k x : String) (h : x ≠ k) :
    setTrue m k x = m x := by
  simp [setTrue, h]

theorem greyVis_setTrue (v r : String → Bool) (k : String) (h : GreyVis v r) :
    GreyVis (setTrue v k) (setTrue r k) := by
  intro x hx
  by_cases hxk : x = k
  · subst hxk; exact setTrue_self v x
  · rw [setTrue_other v k x hxk]
    rw [setTrue_other r k x hxk] at hx
    exact h x hx

/-- State facts of the DFS on a `false` (no cycle found) return: the
recursion stack is restored exactly, grey-implies-visited is preserved, the
visited set only grows, and the root ends visited. -/
theorem dfs_state_facts (fuel : Nat) :
    (∀ (deps : String → List String) (id : String) (v r v' r' : String → Bool),
      GreyVis v r → v id = false →
      hasCycle deps fuel id v r = some (false, v', r') →
      (∀ x, r' x = r x) ∧ GreyVis v' r' ∧ v' id = true ∧
        (∀ x, v x = true → v' x = true)) ∧
    (∀ (deps : String → List String) (l : List String) (v r v' r' : String → Bool),
      GreyVis v r →
      hasCycleDeps deps fuel l v r = some (false, v', r') →
      (∀ x, r' x = r x) ∧ GreyVis v' r' ∧ (∀ x, v x = true → v' x = true)) := by
  induction fuel with
  | zero =>
    constructor
    · intro deps id v r v' r' _ _ h
      simp [hasCycle] at h
    · intro deps l v r v' r' _ h
      simp [hasCycleDeps] at h
  | succ f ih =>
    constructor
    · intro deps id v r v' r' hgv hvid h
      have hrid : r id = false := by
        cases hr : r id with
        | false => rfl
        | true => rw [hgv id hr] at hvid; cases hvid
      cases hd : hasCycleDeps deps f (deps id) (setTrue v id) (setTrue r id) with
      | none => simp [hasCycle, hd] at h
      | some bvr =>
        obtain ⟨b, v2, r2⟩ := bvr
        cases b with
        | true => simp [hasCycle, hd] at h
        | false =>
          simp only [hasCycle, hd] at h
          simp only [Option.some.injEq, Prod.mk.injEq, true_and] at h
          obtain ⟨hv', hr'⟩ := h
          have hin := (ih.2) deps (deps id) (setTrue v id) (setTrue r id) v2 r2
            (greyVis_setTrue v r id hgv) hd
          obtain ⟨hr2eq, hgv2, hmono2⟩ := hin
          subst hv'
          refine ⟨?_, ?_, ?_, ?_⟩
          · intro x
            rw [← hr']
            by_cases hxk : x = id
            · subst hxk
              simp [setFalse, hrid]
            · simp only [setFalse, if_neg hxk]
              rw [hr2eq x, setTrue_other r id x hxk]
          · intro x hx
            rw [← hr'] at hx
            by_cases hxk : x = id
            · subst hxk; simp [setFalse] at hx
            · simp only [setFalse, if_neg hxk] at hx
              exact hgv2 x hx
          · exact hmono2 id (setTrue_self v id)
          · intro x hx
            refine hmono2 x ?_
            by_cases hxk : x = id
            · subst hxk; exact setTrue_self v x
            · rw [setTrue_other v id x hxk]; exact hx
    · intro deps l v r v' r' hgv h
      cases l with
      | nil =>
        simp only [hasCycleDeps, Option.some.injEq, Prod.mk.injEq, true_and] at h
        obtain ⟨hv', hr'⟩ := h
        subst hv'; subst hr'
        exact ⟨fun x => rfl, hgv, fun x hx => hx⟩
      | cons d rest =>
        by_cases hvd : v d = false
        · cases hc : hasCycle deps f d v r with
          | none => simp [hasCycleDeps, hvd, hc] at h
          | some bvr =>
            obtain ⟨b, v2, r2⟩ := bvr
            cases b with
            | true => simp [hasCycleDeps, hvd, hc] at h
            | false =>
              simp only [hasCycleDeps, hvd, if_pos, hc] at h
              have hnode := (ih.1) deps d v r v2 r2 hgv hvd hc
              obtain ⟨hr2eq, hgv2, hv2d, hmono2⟩ := hnode
              have hrest := (ih.2) deps rest v2 r2 v' r' hgv2 h
              obtain ⟨hr'eq, hgv', hmono'⟩ := hrest
              refine ⟨?_, hgv', ?_⟩
              · intro x; rw [hr'eq x, hr2eq x]
              · intro x hx; exact hmono' x (hmono2 x hx)
        · have hvd' : v d = true := by
            cases hv : v d with
            | false => exact absurd hv hvd
            | true => rfl
          by_cases hrd : r d = true
          · simp [hasCycleDeps, hvd', hrd] at h
          · have hrd' : r d = false := by
              cases hr : r d with
              | false => rfl
              | true => exact absurd hr hrd
            simp only [hasCycleDeps, hvd', hrd'] at h
            simp only [Bool.true_eq_false, if_false, Bool.false_eq_true] at h
            exact (ih.2) deps rest v r v' r' hgv h

theorem setTrue_mono (v : String → Bool) (k x : String) (h : v x = true) :
    setTrue v k x = true := by
  by_cases hxk : x = k
  · subst hxk; exact setTrue_self v x
  · rw [setTrue_other v k x hxk]; exact h

theorem dfsWeight_mono (deps : String → List String) (U : List String)
    (v w : String → Bool) (h : ∀ x, v x = true → w x = true) :
    dfsWeight deps U w ≤ dfsWeight deps U v := by
  induction U with
  | nil => simp [dfsWeight]
  | cons u rest ih =>
    simp only [dfsWeight]
    have hterm : (if w u = false then 1 + (deps u).length else 0) ≤
        (if v u = false then 1 + (deps u).length else 0) := by
      by_cases hv : v u = false
      · by_cases hw : w u = false <;> simp [hv, hw]
      · have hv' : v u = true := by
          cases hvv : v u with
          | false => exact absurd hvv hv
          | true => rfl
        have hw' : w u = true := h u hv'
        simp [hv', hw']
    omega

theorem dfsWeight_drop (deps : String → List String) (U : List String)
    (v : String → Bool) (k : String) (hk : k ∈ U) (hvk : v k = false) :
    dfsWeight deps U (setTrue v k) + 1 + (deps k).length ≤
      dfsWeight deps U v := by
  induction U with
  | nil => cases hk
  | cons u rest ih =>
    simp only [dfsWeight]
    rcases List.mem_cons.mp hk with huk | hk'
    · subst huk
      have h1 : setTrue v k k = true := setTrue_self v k
      rw [h1, hvk]
      have hmono := dfsWeight_mono deps rest v (setTrue v k)
        (fun x hx => setTrue_mono v k x hx)
      simp only [Bool.true_eq_false, if_false, eq_self_iff_true, if_true]
      omega
    · by_cases huk : u = k
      · subst huk
        have h1 : setTrue v u u = true := setTrue_self v u
        rw [h1, hvk]
        have hmono := dfsWeight_mono deps rest v (setTrue v u)
          (fun x hx => setTrue_mono v u x hx)
        simp only [Bool.true_eq_false, if_false, eq_self_iff_true, if_true]
        omega
      · rw [setTrue_other v k u huk]
        have := ih hk'
        omega

/-- Fuel sufficiency: with fuel exceeding the weight of the unvisited
universe, the DFS never exhausts its fuel, and a `false` return shrinks the
weight by at least the weight of the root node. -/
theorem dfs_fuel_facts (deps : String → List String) (U : List String)
    (hU : ∀ x d, d ∈ deps x → d ∈ U) :
    ∀ fuel : Nat,
    (∀ (id : String) (v r : String → Bool), id ∈ U → v id = false →
      dfsWeight deps U v + 1 ≤ fuel →
      hasCycle deps fuel id v r ≠ none ∧
      (∀ v' r', hasCycle deps fuel id v r = some (false, v', r') →
        dfsWeight deps U v' + 1 + (deps id).length ≤ dfsWeight deps U v)) ∧
    (∀ (l : List String) (v r : String → Bool), (∀ d ∈ l, d ∈ U) →
      dfsWeight deps U v + l.length + 1 ≤ fuel →
      hasCycleDeps deps fuel l v r ≠ none ∧
      (∀ v' r', hasCycleDeps deps fuel l v r = some (false, v', r') →
        dfsWeight deps U v' ≤ dfsWeight deps U v)) := by
  intro fuel
  induction fuel with
  | zero =>
    constructor
    · intro id v r _ _ hf; omega
    · intro l v r _ hf; omega
  | succ f ih =>
    constructor
    · intro id v r hid hvid hf
      have hdrop := dfsWeight_drop deps U v id hid hvid
      have hsub : ∀ d ∈ deps id, d ∈ U := fun d hd => hU id d hd
      have hreq : dfsWeight deps U (setTrue v id) + (deps id).length + 1 ≤ f := by
        omega
      have hdeps := ih.2 (deps id) (setTrue v id) (setTrue r id) hsub hreq
      constructor
      · intro hnone
        cases hd : hasCycleDeps deps f (deps id) (setTrue v id) (setTrue r id) with
        | none => exact hdeps.1 hd
        | some bvr =>
          obtain ⟨b, v2, r2⟩ := bvr
          cases b <;> simp [hasCycle, hd] at hnone
      · intro v' r' h
        cases hd : hasCycleDeps deps f (deps id) (setTrue v id) (setTrue r id) with
        | none => simp [hasCycle, hd] at h
        | some bvr =>
          obtain ⟨b, v2, r2⟩ := bvr
          cases b with
          | true => simp [hasCycle, hd] at h
          | false =>
            simp only [hasCycle, hd] at h
            simp only [Option.some.injEq, Prod.mk.injEq, true_and] at h
            obtain ⟨hv', _⟩ := h
            subst hv'
            have := hdeps.2 v2 r2 hd
            omega
    · intro l v r hl hf
      cases l with
      | nil =>
        constructor
        · intro hnone; simp [hasCycleDeps] at hnone
        · intro v' r' h
          simp only [hasCycleDeps, Option.some.injEq, Prod.mk.injEq,
            true_and] at h
          obtain ⟨hv', _⟩ := h
          subst hv'
          exact Nat.le_refl _
      | cons d rest =>
        have hdU : d ∈ U := hl d (List.mem_cons_self d rest)
        have hrest : ∀ x ∈ rest, x ∈ U := fun x hx =>
          hl x (List.mem_cons_of_mem d hx)
        by_cases hvd : v d = false
        · have hreq1 : dfsWeight deps U v + 1 ≤ f := by
            simp only [List.length_cons] at hf; omega
          have hnode := ih.1 d v r hdU hvd hreq1
          constructor
          · intro hnone
            cases hc : hasCycle deps f d v r with
            | none => exact hnode.1 hc
            | some bvr =>
              obtain ⟨b, v2, r2⟩ := bvr
              cases b with
              | true => simp [hasCycleDeps, hvd, hc] at hnone
              | false =>
                have hw2 := hnode.2 v2 r2 hc
                have hreq2 : dfsWeight deps U v2 + rest.length + 1 ≤ f := by
                  simp only [List.length_cons] at hf; omega
                have hcont := ih.2 rest v2 r2 hrest hreq2
                simp only [hasCycleDeps, hvd, if_pos, hc] at hnone
                exact hcont.1 hnone
          · intro v' r' h
            cases hc : hasCycle deps f d v r with
            | none => simp [hasCycleDeps, hvd, hc] at h
            | some bvr =>
              obtain ⟨b, v2, r2⟩ := bvr
              cases b with
              | true => simp [hasCycleDeps, hvd, hc] at h
              | false =>
                have hw2 := hnode.2 v2 r2 hc
                have hreq2 : dfsWeight deps U v2 + rest.length + 1 ≤ f := by
                  simp only [List.length_cons] at hf; omega
                have hcont := ih.2 rest v2 r2 hrest hreq2
                simp only [hasCycleDeps, hvd, if_pos, hc] at h
                have := hcont.2 v' r' h
                omega
        · have hvd' : v d = true := by
            cases hv : v d with
            | false => exact absurd hv hvd
            | true => rfl
          by_cases hrd : r d = true
          · constructor
            · intro hnone; simp [hasCycleDeps, hvd', hrd] at hnone
            · intro v' r' h; simp [hasCycleDeps, hvd', hrd] at h
          · have hrd' : r d = false := by
              cases hr : r d with
              | false => rfl
              | true => exact absurd hr hrd
            have hreq2 : dfsWeight deps U v + rest.length + 1 ≤ f := by
              simp only [List.length_cons] at hf; omega
            have hcont := ih.2 rest v r hrest hreq2
            constructor
            · intro hnone
              simp only [hasCycleDeps, hvd', hrd'] at hnone
              simp only [Bool.true_eq_false, if_false, Bool.false_eq_true]
                at hnone
              exact hcont.1 hnone
            · intro v' r' h
              simp only [hasCycleDeps, hvd', hrd'] at h
              simp only [Bool.true_eq_false, if_false, Bool.false_eq_true] at h
              exact hcont.2 v' r' h

theorem acc_no_transGen_self {α : Type} {rel : α → α → Prop} {x : α}
    (hacc : Acc rel x) : ¬ Relation.TransGen rel x x := by
  induction hacc with
  | intro y _ ih =>
    intro hcyc
    obtain ⟨b, hyb, hby⟩ := Relation.TransGen.tail'_iff.mp hcyc
    exact ih b hby (Relation.TransGen.head' hby hyb)

theorem depsFold_spec (ts : List Test) :
    ∀ (m : String → List String) (x : String),
      (ts.foldl (fun m2 t => fun y => if y = t.id then t.dependencies else m2 y)
          m) x = m x ∨
      ∃ t, t ∈ ts ∧ t.id = x ∧
        (ts.foldl (fun m2 t => fun y => if y = t.id then t.dependencies else m2 y)
          m) x = t.dependencies := by
  induction ts with
  | nil => intro m x; exact Or.inl rfl
  | cons t rest ih =>
    intro m x
    rcases ih (fun y => if y = t.id then t.dependencies else m y) x with h | h
    · by_cases hx : x = t.id
      · refine Or.inr ⟨t, List.mem_cons_self t rest, hx.symm, ?_⟩
        rw [List.foldl_cons, h, if_pos hx]
      · refine Or.inl ?_
        rw [List.foldl_cons, h, if_neg hx]
    · obtain ⟨t', ht', hid, heq⟩ := h
      exact Or.inr ⟨t', List.mem_cons_of_mem t ht', hid,
        by rw [List.foldl_cons]; exact heq⟩

theorem depsMap_cases (tests : List Test) (x : String) :
    depsMap tests x = [] ∨
    ∃ t, t ∈ tests ∧ t.id = x ∧ depsMap tests x = t.dependencies :=
  depsFold_spec tests (fun _ => []) x

theorem testId_mem_allIDs (tests : List Test) (t : Test) (h : t ∈ tests) :
    t.id ∈ allIDs tests := by
  unfold allIDs
  exact List.mem_append_left _ (List.mem_map_of_mem (fun u => u.id) h)

theorem depsMap_closed (tests : List Test) :
    ∀ (x d : String), d ∈ depsMap tests x → d ∈ allIDs tests := by
  intro x d hd
  rcases depsMap_cases tests x with h | ⟨t, ht, _, heq⟩
  · rw [h] at hd; cases hd
  · rw [heq] at hd
    unfold allIDs
    refine List.mem_append_right _ ?_
    rw [List.mem_flatMap]
    exact ⟨t, ht, hd⟩

theorem cycle_node_is_test (tests : List Test) (x : String)
    (hx : Relation.TransGen (Edge (depsMap tests)) x x) :
    ∃ t, t ∈ tests ∧ t.id = x := by
  have hedge : ∃ y, Edge (depsMap tests) x y := by
    obtain ⟨y, hy, _⟩ := Relation.TransGen.head'_iff.mp hx
    exact ⟨y, hy⟩
  obtain ⟨y, hy⟩ := hedge
  rcases depsMap_cases tests x with h | ⟨t, ht, hid, _⟩
  · unfold Edge at hy; rw [h] at hy; cases hy
  · exact ⟨t, ht, hid⟩

/-- Soundness of the DFS: a `true` return means the dependency edges really
contain a cycle.  The recursion-stack invariant carried along: every grey
node reaches the current node along dependency edges. -/
theorem dfs_sound (deps : String → List String) :
    ∀ fuel : Nat,
    (∀ (id : String) (v r v' r' : String → Bool),
      GreyVis v r →
      (∀ g, r g = true → Relation.ReflTransGen (Edge deps) g id) →
      hasCycle deps fuel id v r = some (true, v', r') → HasCycle deps) ∧
    (∀ (l : List String) (cur : String) (v r v' r' : String → Bool),
      GreyVis v r →
      (∀ d ∈ l, Edge deps cur d) →
      (∀ g, r g = true → Relation.ReflTransGen (Edge deps) g cur) →
      hasCycleDeps deps fuel l v r = some (true, v', r') → HasCycle deps) := by
  intro fuel
  induction fuel with
  | zero =>
    constructor
    · intro id v r v' r' _ _ h; simp [hasCycle] at h
    · intro l cur v r v' r' _ _ _ h; simp [hasCycleDeps] at h
  | succ f ih =>
    constructor
    · intro id v r v' r' hgv hstack h
      cases hd : hasCycleDeps deps f (deps id) (setTrue v id) (setTrue r id) with
      | none => simp [hasCycle, hd] at h
      | some bvr =>
        obtain ⟨b, v2, r2⟩ := bvr
        cases b with
        | false => simp [hasCycle, hd] at h
        | true =>
          refine ih.2 (deps id) id (setTrue v id) (setTrue r id) v2 r2
            (greyVis_setTrue v r id hgv) (fun d hd2 => hd2) ?_ hd
          intro g hg
          by_cases hgi : g = id
          · subst hgi; exact Relation.ReflTransGen.refl
          · rw [setTrue_other r id g hgi] at hg
            exact hstack g hg
    · intro l cur v r v' r' hgv hedges hstack h
      cases l with
      | nil => simp [hasCycleDeps] at h
      | cons d rest =>
        have hedge_d : Edge deps cur d := hedges d (List.mem_cons_self d rest)
        have hedges_rest : ∀ x ∈ rest, Edge deps cur x := fun x hx =>
          hedges x (List.mem_cons_of_mem d hx)
        by_cases hvd : v d = false
        · cases hc : hasCycle deps f d v r with
          | none => simp [hasCycleDeps, hvd, hc] at h
          | some bvr =>
            obtain ⟨b, v2, r2⟩ := bvr
            cases b with
            | true =>
              refine ih.1 d v r v2 r2 hgv ?_ hc
              intro g hg
              exact Relation.ReflTransGen.tail (hstack g hg) hedge_d
            | false =>
              simp only [hasCycleDeps, hvd, if_pos, hc] at h
              have hsf := (dfs_state_facts f).1 deps d v r v2 r2 hgv hvd hc
              obtain ⟨hr2eq, hgv2, _, _⟩ := hsf
              refine ih.2 rest cur v2 r2 v' r' hgv2 hedges_rest ?_ h
              intro g hg
              rw [hr2eq g] at hg
              exact hstack g hg
        · have hvd' : v d = true := by
            cases hv : v d with
            | false => exact absurd hv hvd
            | true => rfl
          by_cases hrd : r d = true
          · exact ⟨d, Relation.TransGen.tail' (hstack d hrd) hedge_d⟩
          · have hrd' : r d = false := by
              cases hr : r d with
              | false => rfl
              | true => exact absurd hr hrd
            simp only [hasCycleDeps, hvd', hrd'] at h
            simp only [Bool.true_eq_false, if_false, Bool.false_eq_true] at h
            exact ih.2 rest cur v r v' r' hgv hedges_rest hstack h

/-- Completeness invariant of the DFS: a `false` return preserves "every
finished node is accessible", and leaves every scanned dependency finished. -/
theorem dfs_acc (deps : String → List String) :
    ∀ fuel : Nat,
    (∀ (id : String) (v r v' r' : String → Bool),
      GreyVis v r → AccInv deps v r → v id = false →
      hasCycle deps fuel id v r = some (false, v', r') →
      AccInv deps v' r') ∧
    (∀ (l : List String) (v r v' r' : String → Bool),
      GreyVis v r → AccInv deps v r →
      hasCycleDeps deps fuel l v r = some (false, v', r') →
      AccInv deps v' r' ∧ (∀ d ∈ l, v' d = true ∧ r' d = false)) := by
  intro fuel
  induction fuel with
  | zero =>
    constructor
    · intro id v r v' r' _ _ _ h; simp [hasCycle] at h
    · intro l v r v' r' _ _ h; simp [hasCycleDeps] at h
  | succ f ih =>
    constructor
    · intro id v r v' r' hgv hacc hvid h
      have hrid : r id = false := by
        cases hr : r id with
        | false => rfl
        | true => rw [hgv id hr] at hvid; cases hvid
      cases hd : hasCycleDeps deps f (deps id) (setTrue v id) (setTrue r id) with
      | none => simp [hasCycle, hd] at h
      | some bvr =>
        obtain ⟨b, v2, r2⟩ := bvr
        cases b with
        | true => simp [hasCycle, hd] at h
        | false =>
          simp only [hasCycle, hd] at h
          simp only [Option.some.injEq, Prod.mk.injEq, true_and] at h
          obtain ⟨hv', hr'⟩ := h
          subst hv'
          have hgv1 := greyVis_setTrue v r id hgv
          have hacc1 : AccInv deps (setTrue v id) (setTrue r id) := by
            intro x hvx hrx
            by_cases hxk : x = id
            · subst hxk; rw [setTrue_self r x] at hrx; cases hrx
            · rw [setTrue_other r id x hxk] at hrx
              rw [setTrue_other v id x hxk] at hvx
              exact hacc x hvx hrx
          obtain ⟨hacc2, hblack⟩ := ih.2 (deps id) (setTrue v id)
            (setTrue r id) v2 r2 hgv1 hacc1 hd
          intro x hvx hrx
          rw [← hr'] at hrx
          by_cases hxk : x = id
          · subst hxk
            refine Acc.intro x ?_
            intro y hy
            have hb := hblack y hy
            exact hacc2 y hb.1 hb.2
          · simp only [setFalse, if_neg hxk] at hrx
            exact hacc2 x hvx hrx
    · intro l v r v' r' hgv hacc h
      cases l with
      | nil =>
        simp only [hasCycleDeps, Option.some.injEq, Prod.mk.injEq, true_and] at h
        obtain ⟨hv', hr'⟩ := h
        subst hv'; subst hr'
        exact ⟨hacc, by intro d hd; cases hd⟩
      | cons d rest =>
        by_cases hvd : v d = false
        · have hrd : r d = false := by
            cases hr : r d with
            | false => rfl
            | true => rw [hgv d hr] at hvd; cases hvd
          cases hc : hasCycle deps f d v r with
          | none => simp [hasCycleDeps, hvd, hc] at h
          | some bvr =>
            obtain ⟨b, v2, r2⟩ := bvr
            cases b with
            | true => simp [hasCycleDeps, hvd, hc] at h
            | false =>
              simp only [hasCycleDeps, hvd, if_pos, hc] at h
              have hsf := (dfs_state_facts f).1 deps d v r v2 r2 hgv hvd hc
              obtain ⟨hr2eq, hgv2, hv2d, _⟩ := hsf
              have hacc2 := ih.1 d v r v2 r2 hgv hacc hvd hc
              obtain ⟨hacc', hrest⟩ := ih.2 rest v2 r2 v' r' hgv2 hacc2 h
              have hsf2 := (dfs_state_facts f).2 deps rest v2 r2 v' r' hgv2 h
              obtain ⟨hr'eq, _, hmono'⟩ := hsf2
              refine ⟨hacc', ?_⟩
              intro x hx
              rcases List.mem_cons.mp hx with hxd | hxr
              · subst hxd
                refine ⟨hmono' x hv2d, ?_⟩
                rw [hr'eq x, hr2eq x, hrd]
              · exact hrest x hxr
        · have hvd' : v d = true := by
            cases hv : v d with
            | false => exact absurd hv hvd
            | true => rfl
          by_cases hrd : r d = true
          · simp [hasCycleDeps, hvd', hrd] at h
          · have hrd' : r d = false := by
              cases hr : r d with
              | false => rfl
              | true => exact absurd hr hrd
            simp only [hasCycleDeps, hvd', hrd'] at h
            simp only [Bool.true_eq_false, if_false, Bool.false_eq_true] at h
            obtain ⟨hacc', hrest⟩ := ih.2 rest v r v' r' hgv hacc h
            have hsf2 := (dfs_state_facts f).2 deps rest v r v' r' hgv h
            obtain ⟨hr'eq, _, hmono'⟩ := hsf2
            refine ⟨hacc', ?_⟩
            intro x hx
            rcases List.mem_cons.mp hx with hxd | hxr
            · subst hxd
              exact ⟨hmono' x hvd', by rw [hr'eq x, hrd']⟩
            · exact hrest x hxr

theorem detectLoop_ne_none (deps : String → List String) (U : List String)
    (hU : ∀ x d, d ∈ deps x → d ∈ U) (fuel : Nat) :
    ∀ (ts : List Test) (v r : String → Bool),
      (∀ t ∈ ts, t.id ∈ U) → dfsWeight deps U v + 1 ≤ fuel →
      detectLoop deps fuel ts v r ≠ none := by
  intro ts
  induction ts with
  | nil => intro v r _ _ h; simp [detectLoop] at h
  | cons t rest ih =>
    intro v r hts hf h
    have htid : t.id ∈ U := hts t (List.mem_cons_self t rest)
    have hrest : ∀ u ∈ rest, u.id ∈ U := fun u hu =>
      hts u (List.mem_cons_of_mem t hu)
    by_cases hvt : v t.id = false
    · have hfacts := (dfs_fuel_facts deps U hU fuel).1 t.id v r htid hvt hf
      cases hc : hasCycle deps fuel t.id v r with
      | none => exact hfacts.1 hc
      | some bvr =>
        obtain ⟨b, v2, r2⟩ := bvr
        cases b with
        | true => simp [detectLoop, hvt, hc] at h
        | false =>
          have hw := hfacts.2 v2 r2 hc
          simp only [detectLoop, hvt, if_pos, hc] at h
          exact ih v2 r2 hrest (by omega) h
    · have hvt' : v t.id = true := by
        cases hv : v t.id with
        | false => exact absurd hv hvt
        | true => rfl
      simp only [detectLoop, hvt'] at h
      simp only [Bool.true_eq_false, if_false, Bool.false_eq_true] at h
      exact ih v r hrest hf h

theorem detectLoop_sound (deps : String → List String) (fuel : Nat) :
    ∀ (ts : List Test) (v r : String → Bool) (e : String),
      GreyVis v r → (∀ x, r x = false) →
      detectLoop deps fuel ts v r = some (some e) →
      HasCycle deps ∧ ∃ t, t ∈ ts ∧
        e = "circular dependency detected involving test: " ++ t.id := by
  intro ts
  induction ts with
  | nil => intro v r e _ _ h; simp [detectLoop] at h
  | cons t rest ih =>
    intro v r e hgv hallf h
    by_cases hvt : v t.id = false
    · cases hc : hasCycle deps fuel t.id v r with
      | none => simp [detectLoop, hvt, hc] at h
      | some bvr =>
        obtain ⟨b, v2, r2⟩ := bvr
        cases b with
        | true =>
          simp only [detectLoop, hvt, if_pos, hc, Option.some.injEq] at h
          refine ⟨?_, t, List.mem_cons_self t rest, h.symm⟩
          refine (dfs_sound deps fuel).1 t.id v r v2 r2 hgv ?_ hc
          intro g hg
          rw [hallf g] at hg; cases hg
        | false =>
          simp only [detectLoop, hvt, if_pos, hc] at h
          have hsf := (dfs_state_facts fuel).1 deps t.id v r v2 r2 hgv hvt hc
          obtain ⟨hr2eq, hgv2, _, _⟩ := hsf
          have hrec := ih v2 r2 e hgv2
            (fun x => by rw [hr2eq x]; exact hallf x) h
          exact ⟨hrec.1, hrec.2.choose,
            List.mem_cons_of_mem t hrec.2.choose_spec.1, hrec.2.choose_spec.2⟩
    · have hvt' : v t.id = true := by
        cases hv : v t.id with
        | false => exact absurd hv hvt
        | true => rfl
      simp only [detectLoop, hvt'] at h
      simp only [Bool.true_eq_false, if_false, Bool.false_eq_true] at h
      have hrec := ih v r e hgv hallf h
      exact ⟨hrec.1, hrec.2.choose,
        List.mem_cons_of_mem t hrec.2.choose_spec.1, hrec.2.choose_spec.2⟩

theorem detectLoop_complete (deps : String → List String) (fuel : Nat) :
    ∀ (ts : List Test) (v r : String → Bool),
      GreyVis v r → AccInv deps v r → (∀ x, r x = false) →
      detectLoop deps fuel ts v r = some none →
      ∀ t ∈ ts, Acc (DepRel deps) t.id := by
  intro ts
  induction ts with
  | nil => intro v r _ _ _ _ t ht; cases ht
  | cons t rest ih =>
    intro v r hgv hacc hallf h u hu
    by_cases hvt : v t.id = false
    · cases hc : hasCycle deps fuel t.id v r with
      | none => simp [detectLoop, hvt, hc] at h
      | some bvr =>
        obtain ⟨b, v2, r2⟩ := bvr
        cases b with
        | true => simp [detectLoop, hvt, hc] at h
        | false =>
          simp only [detectLoop, hvt, if_pos, hc] at h
          have hsf := (dfs_state_facts fuel).1 deps t.id v r v2 r2 hgv hvt hc
          obtain ⟨hr2eq, hgv2, hv2t, _⟩ := hsf
          have hacc2 := (dfs_acc deps fuel).1 t.id v r v2 r2 hgv hacc hvt hc
          have hallf2 : ∀ x, r2 x = false := fun x => by
            rw [hr2eq x]; exact hallf x
          rcases List.mem_cons.mp hu with hut | hur
          · subst hut
            exact hacc2 u.id hv2t (hallf2 u.id)
          · exact ih v2 r2 hgv2 hacc2 hallf2 h u hur
    · have hvt' : v t.id = true := by
        cases hv : v t.id with
        | false => exact absurd hv hvt
        | true => rfl
      simp only [detectLoop, hvt'] at h
      simp only [Bool.true_eq_false, if_false, Bool.false_eq_true] at h
      rcases List.mem_cons.mp hu with hut | hur
      · subst hut
        exact hacc u.id hvt' (hallf u.id)
      · exact ih v r hgv hacc hallf h u hur

theorem detect_sound (tests : List Test) (e : String)
    (h : detectCircularDependencies tests = some e) :
    HasCycle (depsMap tests) ∧ ∃ t, t ∈ tests ∧
      e = "circular dependency detected involving test: " ++ t.id := by
  unfold detectCircularDependencies at h
  cases hl : detectLoop (depsMap tests) (dfsFuel tests) tests
      (fun _ => false) (fun _ => false) with
  | none =>
    exfalso
    refine detectLoop_ne_none (depsMap tests) (allIDs tests)
      (depsMap_closed tests) (dfsFuel tests) tests (fun _ => false)
      (fun _ => false) (fun t ht => testId_mem_allIDs tests t ht) ?_ hl
    unfold dfsFuel
    exact Nat.le_refl _
  | some e2 =>
    rw [hl] at h
    cases e2 with
    | none => cases h
    | some msg =>
      have : msg = e := by
        simpa using h
      subst this
      exact detectLoop_sound (depsMap tests) (dfsFuel tests) tests
        (fun _ => false) (fun _ => false) msg (fun x hx => by cases hx)
        (fun x => rfl) hl

theorem detect_complete (tests : List Test)
    (h : detectCircularDependencies tests = none) :
    ¬ HasCycle (depsMap tests) := by
  unfold detectCircularDependencies at h
  cases hl : detectLoop (depsMap tests) (dfsFuel tests) tests
      (fun _ => false) (fun _ => false) with
  | none => rw [hl] at h; cases h
  | some e2 =>
    cases e2 with
    | some msg => rw [hl] at h; cases h
    | none =>
      have hAll := detectLoop_complete (depsMap tests) (dfsFuel tests) tests
        (fun _ => false) (fun _ => false) (fun x hx => by cases hx)
        (fun x hx _ => by cases hx) (fun x => rfl) hl
      rintro ⟨x, hx⟩
      obtain ⟨t, ht, hid⟩ := cycle_node_is_test tests x hx
      have hAccx : Acc (DepRel (depsMap tests)) x := by
        rw [← hid]; exact hAll t ht
      have hflip : Relation.TransGen (DepRel (depsMap tests)) x x :=
        Relation.transGen_swap.mpr hx
      exact acc_no_transGen_self hAccx hflip

theorem newExecutionPlan_ok_of_detect_none (tests : List Test)
    (h : detectCircularDependencies tests = none) :
    ∃ p, NewExecutionPlan tests = Except.ok p := by
  unfold NewExecutionPlan
  rw [h]
  exact ⟨_, rfl⟩

theorem newExecutionPlan_error_inv (tests : List Test) (e : String)
    (h : NewExecutionPlan tests = Except.error e) :
    detectCircularDependencies tests = some e := by
  unfold NewExecutionPlan at h
  cases hd : detectCircularDependencies tests with
  | none => rw [hd] at h; cases h
  | some e2 =>
    rw [hd] at h
    simp only [Except.error.injEq] at h
    rw [h]

/-- C4: `NewExecutionPlan` fails exactly when the declared dependency edges
contain a cycle; every error message names a task of the set; and the
two-task mutual cycle is rejected at plan-build time with the named
circular-dependency error. -/
theorem newExecutionPlan_rejects_exactly_cycles :
    (∀ tests : List Test,
      (∃ p, NewExecutionPlan tests = Except.ok p) ↔
        ¬ HasCycle (depsMap tests)) ∧
    (∀ (tests : List Test) (e : String),
      NewExecutionPlan tests = Except.error e →
      HasCycle (depsMap tests) ∧ ∃ t, t ∈ tests ∧
        e = "circular dependency detected involving test: " ++ t.id) ∧
    NewExecutionPlan [exCycA, exCycB] =
      Except.error "circular dependency detected involving test: A" := by
  refine ⟨?_, ?_, ?_⟩
  · intro tests
    constructor
    · rintro ⟨p, hp⟩
      cases hd : detectCircularDependencies tests with
      | none => exact detect_complete tests hd
      | some e =>
        exfalso
        unfold NewExecutionPlan at hp
        rw [hd] at hp
        cases hp
    · intro hnc
      cases hd : detectCircularDependencies tests with
      | none => exact newExecutionPlan_ok_of_detect_none tests hd
      | some e => exact absurd (detect_sound tests e hd).1 hnc
  · intro tests e h
    exact detect_sound tests e (newExecutionPlan_error_inv tests e h)
  · rfl

/-- C4 witness: the theorem applied at the mutual cycle (for the naming
part) and at the acyclic chain (for the if-and-only-if part). -/
theorem newExecutionPlan_rejects_exactly_cycles_witness :
    (∃ t, t ∈ [exCycA, exCycB] ∧
      "circular dependency detected involving test: A" =
        "circular dependency detected involving test: " ++ t.id) ∧
    ¬ HasCycle (depsMap [exTaskA, exTaskB]) :=
  ⟨(newExecutionPlan_rejects_exactly_cycles.2.1 [exCycA, exCycB]
      "circular dependency detected involving test: A" rfl).2,
   (newExecutionPlan_rejects_exactly_cycles.1 [exTaskA, exTaskB]).mp
      ⟨{ tests := [exTaskA, exTaskB]
         dependencies := depsMap [exTaskA, exTaskB]
         completed := fun _ => false
         failed := fun _ => false }, rfl⟩⟩

/-! ### Plan-state preservation lemmas (for C10) -/

theorem recordResult_plan (ee : ExecutionEngine) (r : ExecutionResult) :
    (recordResult ee r).plan = ee.plan := by
  cases hst : r.status <;> simp [recordResult, hst]

theorem skipTest_plan (ee : ExecutionEngine) (t : Test) (reason : String) :
    (skipTest ee t reason).plan = ee.plan :=
  recordResult_plan ee _

theorem recordResult_tests (ee : ExecutionEngine) (r : ExecutionResult) :
    (recordResult ee r).tests = ee.tests := by
  cases hst : r.status <;> simp [recordResult, hst]

theorem skipTest_tests (ee : ExecutionEngine) (t : Test) (reason : String) :
    (skipTest ee t reason).tests = ee.tests :=
  recordResult_tests ee _

theorem engineExecuteTest_tests (ee : ExecutionEngine) (t : Test) :
    (engineExecuteTest ee t).1.tests = ee.tests :=
  rfl

theorem engineExecuteTest_plan (ee : ExecutionEngine) (t : Test) :
    (engineExecuteTest ee t).1.plan = ee.plan :=
  rfl

theorem workerProcess_tests (ee : ExecutionEngine) (t : Test) :
    (workerProcess ee t).tests = ee.tests := by
  unfold workerProcess
  split
  · dsimp only
    split
    · simp [markTestCompleted, recordResult_tests, engineExecuteTest_tests]
    · split
      · simp [markTestFailed, recordResult_tests, engineExecuteTest_tests]
      · simp [recordResult_tests, engineExecuteTest_tests]
  · exact skipTest_tests ee t _

theorem workerProcess_plan_cases (ee : ExecutionEngine) (t : Test) :
    (workerProcess ee t).plan = ee.plan ∨
    (workerProcess ee t).plan = MarkCompleted ee.plan t.id ∨
    (workerProcess ee t).plan = MarkFailed ee.plan t.id := by
  unfold workerProcess
  split
  · dsimp only
    split
    · refine Or.inr (Or.inl ?_)
      simp [markTestCompleted, recordResult_plan, engineExecuteTest_plan]
    · split
      · refine Or.inr (Or.inr ?_)
        simp [markTestFailed, recordResult_plan, engineExecuteTest_plan]
      · exact Or.inl (by simp [recordResult_plan, engineExecuteTest_plan])
  · exact Or.inl (skipTest_plan ee t _)

theorem workerProcess_plan_tests (ee : ExecutionEngine) (t : Test) :
    (workerProcess ee t).plan.tests = ee.plan.tests := by
  rcases workerProcess_plan_cases ee t with h | h | h <;> rw [h] <;> rfl

theorem workerProcess_completed_d (ee : ExecutionEngine) (t : Test)
    (d : String) (hne : t.id ≠ d) (h : ee.plan.completed d = false) :
    (workerProcess ee t).plan.completed d = false := by
  rcases workerProcess_plan_cases ee t with hp | hp | hp <;> rw [hp]
  · exact h
  · show setTrue ee.plan.completed t.id d = false
    rw [setTrue_other ee.plan.completed t.id d (fun hdt => hne hdt.symm)]
    exact h
  · exact h

theorem mem_getReadyTests_sub (ep : ExecutionPlan) (t : Test)
    (h : t ∈ GetReadyTests ep) : t ∈ ep.tests :=
  List.mem_of_mem_filter h

theorem mem_getReadyTests_dep_completed (ep : ExecutionPlan) (t : Test)
    (d : String) (ht : t ∈ GetReadyTests ep) (hd : d ∈ t.dependencies) :
    ep.completed d = true := by
  have hpred := List.of_mem_filter ht
  simp only [Bool.and_eq_true, List.all_eq_true] at hpred
  exact (hpred.2 d hd).1

theorem applyMarks_completed_false (d : String) :
    ∀ (ops : List (Bool × String)) (ep : ExecutionPlan),
      ep.completed d = false → (∀ o ∈ ops, o.2 ≠ d) →
      (applyMarks ep ops).completed d = false := by
  intro ops
  induction ops with
  | nil => intro ep h _; exact h
  | cons o rest ih =>
    intro ep h hne
    obtain ⟨flag, i⟩ := o
    have hid : i ≠ d := hne (flag, i) (List.mem_cons_self _ rest)
    have hrest : ∀ o ∈ rest, o.2 ≠ d := fun o ho =>
      hne o (List.mem_cons_of_mem _ ho)
    cases flag with
    | true =>
      refine ih (MarkCompleted ep i) ?_ hrest
      show setTrue ep.completed i d = false
      rw [setTrue_other ep.completed i d (fun hdi => hid hdi.symm)]
      exact h
    | false =>
      refine ih (MarkFailed ep i) ?_ hrest
      exact h

theorem parStep_queueInv (tests0 : List Test) (s : ParState) (p : PStep)
    (h : ParQueueInv tests0 s) : ParQueueInv tests0 (parStep s p) := by
  obtain ⟨het, hpt, hq⟩ := h
  cases p with
  | cancel => exact ⟨het, hpt, hq⟩
  | dispatch =>
    show ParQueueInv tests0 (parDispatch s)
    unfold parDispatch
    split
    · exact ⟨het, hpt, hq⟩
    · split
      · exact ⟨het, hpt, hq⟩
      · split
        · split
          · exact ⟨het, hpt, hq⟩
          · exact ⟨het, hpt, hq⟩
        · refine ⟨het, hpt, ?_⟩
          intro t ht
          rcases List.mem_append.mp ht with h1 | h2
          · exact hq t h1
          · have : t ∈ GetReadyTests s.ee.plan :=
              List.mem_of_mem_filter h2
            rw [← hpt]
            exact mem_getReadyTests_sub s.ee.plan t this
  | work =>
    show ParQueueInv tests0 (parWork s)
    unfold parWork
    split
    · exact ⟨het, hpt, hq⟩
    · split
      · exact ⟨het, hpt, hq⟩
      · rename_i t rest heq
        have hqr : ∀ u ∈ rest, u ∈ tests0 := fun u hu => by
          refine hq u ?_
          rw [heq]
          exact List.mem_cons_of_mem t hu
        split
        · refine ⟨?_, ?_, hqr⟩
          · show (skipTest s.ee t "context canceled").tests = tests0
            rw [skipTest_tests]; exact het
          · show (skipTest s.ee t "context canceled").plan.tests = tests0
            rw [skipTest_plan]; exact hpt
        · refine ⟨?_, ?_, hqr⟩
          · show (workerProcess s.ee t).tests = tests0
            rw [workerProcess_tests]; exact het
          · show (workerProcess s.ee t).plan.tests = tests0
            rw [workerProcess_plan_tests]; exact hpt

theorem parStep_completed_false (tests0 : List Test) (d : String)
    (s : ParState) (p : PStep) (hq : ParQueueInv tests0 s)
    (hd : d ∉ tests0.map (fun t => t.id))
    (h : s.ee.plan.completed d = false) :
    (parStep s p).ee.plan.completed d = false := by
  obtain ⟨het, hpt, hqm⟩ := hq
  cases p with
  | cancel => exact h
  | dispatch =>
    show (parDispatch s).ee.plan.completed d = false
    unfold parDispatch
    split
    · exact h
    · split
      · exact h
      · split
        · split
          · exact h
          · exact h
        · exact h
  | work =>
    show (parWork s).ee.plan.completed d = false
    unfold parWork
    split
    · exact h
    · split
      · exact h
      · rename_i t rest heq
        have htmem : t ∈ tests0 := hqm t (by rw [heq]; exact List.mem_cons_self t rest)
        have hne : t.id ≠ d := by
          intro hcontra
          refine hd ?_
          rw [← hcontra]
          exact List.mem_map_of_mem (fun u => u.id) htmem
        split
        · show (skipTest s.ee t "context canceled").plan.completed d = false
          rw [skipTest_plan]; exact h
        · exact workerProcess_completed_d s.ee t d hne h

theorem parFold_completed_false (tests0 : List Test) (d : String)
    (hd : d ∉ tests0.map (fun t => t.id)) :
    ∀ (sched : List PStep) (s : ParState), ParQueueInv tests0 s →
      s.ee.plan.completed d = false →
      ParQueueInv tests0 (sched.foldl parStep s) ∧
        (sched.foldl parStep s).ee.plan.completed d = false := by
  intro sched
  induction sched with
  | nil => intro s hq h; exact ⟨hq, h⟩
  | cons p rest ih =>
    intro s hq h
    rw [List.foldl_cons]
    exact ih (parStep s p) (parStep_queueInv tests0 s p hq)
      (parStep_completed_false tests0 d s p hq hd h)

/-- C10: `NewExecutionPlan` does not validate that dependency IDs resolve: a
cycle-free task set always builds a plan, dangling dependencies included; a
task with an uncompleted dependency is never in the ready set; an arbitrary
sequence of plan marks on other IDs never completes a missing dependency;
across any parallel-run schedule the plan never marks a non-task ID
completed (the engine only marks IDs of queued tasks); and the concrete
dangling-dependency set builds fine with an empty ready set. -/
theorem newExecutionPlan_allows_dangling_deps :
    (∀ tests : List Test, ¬ HasCycle (depsMap tests) →
      ∃ p, NewExecutionPlan tests = Except.ok p) ∧
    (∀ (ep : ExecutionPlan) (t : Test) (d : String), d ∈ t.dependencies →
      ep.completed d = false → t ∉ GetReadyTests ep) ∧
    (∀ (ep : ExecutionPlan) (ops : List (Bool × String)) (d : String),
      ep.completed d = false → (∀ o ∈ ops, o.2 ≠ d) →
      (applyMarks ep ops).completed d = false) ∧
    (∀ (tests : List Test) (config : RunConfig) (ee : ExecutionEngine)
        (d : String) (sched : List PStep),
      (NewExecutionEngine tests (some config)).1 = Except.ok ee →
      d ∉ tests.map (fun t => t.id) →
      (parRunState ee sched).ee.plan.completed d = false) ∧
    ((NewExecutionPlan [exDangling]).isOk = true ∧
      (GetReadyTests exDanglingPlan).map (fun t => t.id) = []) := by
  refine ⟨?_, ?_, ?_, ?_, rfl, rfl⟩
  · intro tests hnc
    exact (newExecutionPlan_rejects_exactly_cycles.1 tests).mpr hnc
  · intro ep t d hd hc hmem
    have := mem_getReadyTests_dep_completed ep t d hmem hd
    rw [hc] at this
    cases this
  · intro ep ops d hc hne
    exact applyMarks_completed_false d ops ep hc hne
  · intro tests config ee d sched h hd
    have hinv := newEngine_ok_inv tests config ee h
    have hq0 : ParQueueInv tests (parInit ee) := by
      refine ⟨hinv.1, hinv.2.2.2.1, ?_⟩
      intro t ht
      cases ht
    have hc0 : (parInit ee).ee.plan.completed d = false := by
      show ee.plan.completed d = false
      rw [hinv.2.2.2.2.2.2.2.2.2.2.2.2.1]
    exact (parFold_completed_false tests d hd sched (parInit ee) hq0 hc0).2

/-- C10 witness: the theorem applied at the dangling-dependency task: the
plan builds (via the acyclicity of its one-edge graph) and the task is not
ready while `"ghost"` is uncompleted. -/
theorem newExecutionPlan_allows_dangling_deps_witness :
    (∃ p, NewExecutionPlan [exDangling] = Except.ok p) ∧
    exDangling ∉ GetReadyTests exDanglingPlan :=
  ⟨newExecutionPlan_allows_dangling_deps.1 [exDangling]
      (detect_complete [exDangling] rfl),
   newExecutionPlan_allows_dangling_deps.2.1 exDanglingPlan exDangling "ghost"
      (by simp [exDangling]) rfl⟩

/-! ### Kahn-loop invariants (for C5's coverage of the sequential modes) -/

theorem setInt_self (m : String → Int) (k : String) (v : Int) :
    setInt m k v k = v := by
  simp [setInt]

theorem setInt_other (m : String → Int) (k : String) (v : Int) (x : String)
    (h : x ≠ k) : setInt m k v x = m x := by
  simp [setInt, h]

theorem kahnDec_inv (tests B : List Test) (cid : String) (t : Test)
    (ht : t ∈ tests) (hdeps : t.dependencies ≠ [])
    (dep : String) (acc : (String → Int) × List Test)
    (hinv : KahnInv tests acc.1 (B ++ acc.2)) :
    KahnInv tests (kahnDec cid t acc dep).1 (B ++ (kahnDec cid t acc dep).2) := by
  obtain ⟨hmem, hnodup, hcount⟩ := hinv
  unfold kahnDec
  by_cases hdep : dep = cid
  · rw [if_pos hdep]
    by_cases hz : setInt acc.1 t.id (acc.1 t.id - 1) t.id = 0
    · rw [if_pos hz]
      dsimp only
      have hz0 : acc.1 t.id - 1 = 0 := by rw [setInt_self] at hz; exact hz
      have htid_notin : t.id ∉ (B ++ acc.2).map (fun u => u.id) := by
        intro hin
        have := hcount t ht hdeps hin
        omega
      refine ⟨?_, ?_, ?_⟩
      · intro u hu
        rw [← List.append_assoc] at hu
        rcases List.mem_append.mp hu with h1 | h2
        · exact hmem u h1
        · rw [List.mem_singleton.mp h2]; exact ht
      · rw [← List.append_assoc, List.map_append]
        refine List.Nodup.append hnodup (List.nodup_singleton _) ?_
        intro i hi hi2
        have hit : i = t.id := by simpa using hi2
        rw [hit] at hi
        exact htid_notin hi
      · intro u hu hud huin
        rw [← List.append_assoc, List.map_append] at huin
        rcases List.mem_append.mp huin with h1 | h2
        · have hle := hcount u hu hud h1
          by_cases hui : u.id = t.id
          · rw [hui, setInt_self]
            rw [← hui]
            omega
          · rw [setInt_other acc.1 t.id _ u.id hui]
            exact hle
        · have huid : u.id = t.id := by simpa using h2
          rw [huid, setInt_self]
          omega
    · rw [if_neg hz]
      dsimp only
      refine ⟨hmem, hnodup, ?_⟩
      intro u hu hud huin
      have hle := hcount u hu hud huin
      by_cases hui : u.id = t.id
      · rw [hui, setInt_self, ← hui]
        omega
      · rw [setInt_other acc.1 t.id _ u.id hui]
        exact hle
  · rw [if_neg hdep]
    exact ⟨hmem, hnodup, hcount⟩

theorem kahnDecFold_inv (tests B : List Test) (cid : String) (t : Test)
    (ht : t ∈ tests) (hdeps : t.dependencies ≠ []) :
    ∀ (l : List String) (acc : (String → Int) × List Test),
      KahnInv tests acc.1 (B ++ acc.2) →
      KahnInv tests (l.foldl (kahnDec cid t) acc).1
        (B ++ (l.foldl (kahnDec cid t) acc).2) := by
  intro l
  induction l with
  | nil => intro acc hinv; exact hinv
  | cons d rest ih =>
    intro acc hinv
    rw [List.foldl_cons]
    exact ih (kahnDec cid t acc d) (kahnDec_inv tests B cid t ht hdeps d acc hinv)

theorem kahnScanFold_inv (tests B : List Test) (cid : String) :
    ∀ (scan : List Test) (acc : (String → Int) × List Test),
      (∀ t ∈ scan, t ∈ tests) →
      KahnInv tests acc.1 (B ++ acc.2) →
      KahnInv tests
        (scan.foldl (fun acc2 t => t.dependencies.foldl (kahnDec cid t) acc2)
          acc).1
        (B ++ (scan.foldl
          (fun acc2 t => t.dependencies.foldl (kahnDec cid t) acc2) acc).2) := by
  intro scan
  induction scan with
  | nil => intro acc _ hinv; exact hinv
  | cons t rest ih =>
    intro acc hsc hinv
    rw [List.foldl_cons]
    refine ih (t.dependencies.foldl (kahnDec cid t) acc)
      (fun u hu => hsc u (List.mem_cons_of_mem t hu)) ?_
    by_cases hd : t.dependencies = []
    · rw [hd, List.foldl_nil]; exact hinv
    · exact kahnDecFold_inv tests B cid t
        (hsc t (List.mem_cons_self t rest)) hd t.dependencies acc hinv

theorem kahnLoop_inv (tests : List Test) :
    ∀ (fuel : Nat) (ind : String → Int) (queue ordered : List Test),
      KahnInv tests ind (ordered ++ queue) →
      (∀ u ∈ kahnLoop tests fuel ind queue ordered, u ∈ tests) ∧
      ((kahnLoop tests fuel ind queue ordered).map (fun t => t.id)).Nodup := by
  intro fuel
  induction fuel with
  | zero =>
    intro ind queue ordered hinv
    obtain ⟨hmem, hnodup, _⟩ := hinv
    cases queue with
    | nil =>
      simp only [kahnLoop]
      constructor
      · intro u hu; exact hmem u (by simpa using hu)
      · simpa using hnodup
    | cons c qrest =>
      simp only [kahnLoop]
      constructor
      · intro u hu; exact hmem u (List.mem_append_left _ hu)
      · rw [List.map_append] at hnodup
        exact (List.nodup_append.mp hnodup).1
  | succ f ih =>
    intro ind queue ordered hinv
    cases queue with
    | nil =>
      obtain ⟨hmem, hnodup, _⟩ := hinv
      simp only [kahnLoop]
      constructor
      · intro u hu; exact hmem u (by simpa using hu)
      · simpa using hnodup
    | cons current qrest =>
      simp only [kahnLoop]
      have hinv2 : KahnInv tests ind ((ordered ++ [current]) ++ qrest) := by
        rw [List.append_assoc, List.singleton_append]
        exact hinv
      have hscan := kahnScanFold_inv tests (ordered ++ [current]) current.id
        tests (ind, qrest) (fun t h => h) hinv2
      exact ih (kahnScan current tests (ind, qrest)).1
        (kahnScan current tests (ind, qrest)).2 (ordered ++ [current]) hscan

theorem kahnRun_facts (tests : List Test)
    (hids : (tests.map (fun t => t.id)).Nodup) :
    (∀ u ∈ kahnRun tests, u ∈ tests) ∧
    ((kahnRun tests).map (fun t => t.id)).Nodup := by
  refine kahnLoop_inv tests (kahnFuel tests) (buildInDegree tests)
    (kahnInit tests) [] ⟨?_, ?_, ?_⟩
  · intro u hu
    simp only [List.nil_append] at hu
    exact List.mem_of_mem_filter hu
  · simp only [List.nil_append]
    refine List.Nodup.sublist ?_ hids
    exact List.Sublist.map _ (List.filter_sublist tests)
  · intro u hu hud huin
    simp only [List.nil_append] at huin
    exfalso
    obtain ⟨w, hw, hwid⟩ := List.mem_map.mp huin
    have hwt : w ∈ tests := List.mem_of_mem_filter hw
    have hwnodeps : w.dependencies = [] := by
      have := List.of_mem_filter hw
      simp only [decide_eq_true_eq] at this
      exact List.length_eq_zero.mp this
    have : w = u := List.inj_on_of_nodup_map hids hwt hu hwid
    rw [this] at hwnodeps
    exact hud hwnodeps

theorem getExecutionOrder_covers (ep : ExecutionPlan) (ordered : List Test)
    (hids : (ep.tests.map (fun t => t.id)).Nodup)
    (h : GetExecutionOrder ep = Except.ok ordered) :
    (∀ u ∈ ordered, u ∈ ep.tests) ∧
    (∀ t ∈ ep.tests, t.id ∈ ordered.map (fun u => u.id)) := by
  unfold GetExecutionOrder at h
  by_cases hlen : (kahnRun ep.tests).length ≠ ep.tests.length
  · rw [if_pos hlen] at h; cases h
  · rw [if_neg hlen] at h
    simp only [Except.ok.injEq] at h
    subst h
    have hfacts := kahnRun_facts ep.tests hids
    refine ⟨hfacts.1, ?_⟩
    intro t ht
    have hlen2 : (kahnRun ep.tests).length = ep.tests.length := by omega
    have hsub : ((kahnRun ep.tests).map (fun u => u.id)).toFinset ⊆
        (ep.tests.map (fun u => u.id)).toFinset := by
      intro i hi
      rw [List.mem_toFinset] at hi ⊢
      obtain ⟨u, hu, huid⟩ := List.mem_map.mp hi
      exact huid ▸ List.mem_map_of_mem _ (hfacts.1 u hu)
    have hcard1 : ((kahnRun ep.tests).map (fun u => u.id)).toFinset.card =
        (kahnRun ep.tests).length := by
      rw [List.card_toFinset, List.dedup_eq_self.mpr hfacts.2,
        List.length_map]
    have hcard2 : ((ep.tests.map (fun u => u.id)).toFinset).card =
        ep.tests.length := by
      rw [List.card_toFinset, List.dedup_eq_self.mpr hids, List.length_map]
    have heq := Finset.eq_of_subset_of_card_le hsub (by omega)
    have : t.id ∈ (ep.tests.map (fun u => u.id)).toFinset :=
      List.mem_toFinset.mpr (List.mem_map_of_mem _ ht)
    rw [← heq] at this
    exact List.mem_toFinset.mp this

/-! ### Result-list lemmas (for C5) -/

theorem executeTestLoop_result_facts (config : RunConfig) (t : Test) :
    ∀ (rem attempt rc : Nat) (lastErr : Option String),
      (executeTestLoop config t rem attempt rc lastErr).1.testID = t.id ∧
      ((executeTestLoop config t rem attempt rc lastErr).1.status =
          TestStatus.passed ∨
        (executeTestLoop config t rem attempt rc lastErr).1.status =
          TestStatus.failed) := by
  intro rem
  induction rem with
  | zero =>
    intro attempt rc lastErr
    exact ⟨rfl, Or.inr rfl⟩
  | succ n ih =>
    intro attempt rc lastErr
    cases hL : (runTestLifecycle t attempt).err with
    | none => simp [executeTestLoop, hL]
    | some e =>
      simp only [executeTestLoop, hL]
      exact ih (attempt + 1) _ (some e)

theorem executeTest_result_facts (config : RunConfig) (t : Test) :
    (executeTest config t).1.testID = t.id ∧
    ((executeTest config t).1.status = TestStatus.passed ∨
      (executeTest config t).1.status = TestStatus.failed) :=
  executeTestLoop_result_facts config t (maxAttemptsOf config t) 0 0 none

theorem recordResult_results (ee : ExecutionEngine) (r : ExecutionResult) :
    (recordResult ee r).results = ee.results ++ [r] := by
  cases hst : r.status <;> simp [recordResult, hst]

theorem skipTest_results (ee : ExecutionEngine) (t : Test) (reason : String) :
    (skipTest ee t reason).results = ee.results ++
      [{ testID := t.id, status := TestStatus.skipped, skipReason := reason }] :=
  recordResult_results ee _

theorem runSeqStep_results (ee : ExecutionEngine) (t : Test) :
    ∃ res : ExecutionResult, (runSeqStep ee t).results = ee.results ++ [res] ∧
      res.testID = t.id ∧ res.status.isTerminal = true := by
  unfold runSeqStep
  split
  · dsimp only
    have hfacts := executeTest_result_facts ee.config t
    refine ⟨(executeTest ee.config t).1, ?_, hfacts.1, ?_⟩
    · split
      · show (recordResult (engineExecuteTest ee t).1 _).results = _
        rw [recordResult_results]
        rfl
      · split
        · show (recordResult (engineExecuteTest ee t).1 _).results = _
          rw [recordResult_results]
          rfl
        · show (recordResult (engineExecuteTest ee t).1 _).results = _
          rw [recordResult_results]
          rfl
    · rcases hfacts.2 with h | h <;> rw [h] <;> rfl
  · refine ⟨_, skipTest_results ee t _, rfl, rfl⟩

theorem runSeqFold_results (l : List Test) :
    ∀ ee : ExecutionEngine, ∃ suffix : List ExecutionResult,
      (l.foldl runSeqStep ee).results = ee.results ++ suffix ∧
      (∀ t ∈ l, ∃ r ∈ suffix, r.testID = t.id) ∧
      (∀ r ∈ suffix, r.status.isTerminal = true) := by
  induction l with
  | nil =>
    intro ee
    refine ⟨[], by simp, ⟨?_, ?_⟩⟩
    · intro t ht; cases ht
    · intro r hr; cases hr
  | cons t rest ih =>
    intro ee
    rw [List.foldl_cons]
    obtain ⟨res, hres, hid, hterm⟩ := runSeqStep_results ee t
    obtain ⟨suffix, hsuf, hcov, hterm2⟩ := ih (runSeqStep ee t)
    refine ⟨[res] ++ suffix, ?_, ?_, ?_⟩
    · rw [hsuf, hres, List.append_assoc]
    · intro u hu
      rcases List.mem_cons.mp hu with hut | hur
      · subst hut
        exact ⟨res, List.mem_append_left _ (List.mem_singleton_self res), hid⟩
      · obtain ⟨r, hr, hrid⟩ := hcov u hur
        exact ⟨r, List.mem_append_right _ hr, hrid⟩
    · intro r hr
      rcases List.mem_append.mp hr with h1 | h2
      · rw [List.mem_singleton.mp h1]; exact hterm
      · exact hterm2 r h2

theorem runSequential_ok (ee : ExecutionEngine) (ordered : List Test)
    (hord : GetExecutionOrder ee.plan = Except.ok ordered) :
    runSequential ee = (ordered.foldl runSeqStep ee,
      (ordered.foldl runSeqStep ee).results, none) := by
  unfold runSequential
  rw [hord]

theorem runSequential_covers (tests : List Test) (config : RunConfig)
    (ee : ExecutionEngine)
    (hok : (NewExecutionEngine tests (some config)).1 = Except.ok ee)
    (hids : (tests.map (fun t => t.id)).Nodup)
    (hnone : (runSequential ee).2.2 = none) :
    (∀ t ∈ tests, ∃ r ∈ (runSequential ee).2.1, r.testID = t.id) ∧
    (∀ r ∈ (runSequential ee).2.1, r.status.isTerminal = true) := by
  have hinv := newEngine_ok_inv tests config ee hok
  cases hord : GetExecutionOrder ee.plan with
  | error e =>
    exfalso
    unfold runSequential at hnone
    rw [hord] at hnone
    cases hnone
  | ok ordered =>
    rw [runSequential_ok ee ordered hord]
    have hplanids : (ee.plan.tests.map (fun t => t.id)).Nodup := by
      rw [hinv.2.2.2.1]; exact hids
    have hcover := getExecutionOrder_covers ee.plan ordered hplanids hord
    obtain ⟨suffix, hsuf, hcov, hterm⟩ := runSeqFold_results ordered ee
    have hres0 : ee.results = [] := hinv.2.2.2.2.2.2.2.2.2.1
    rw [hsuf, hres0, List.nil_append]
    constructor
    · intro t ht
      have htid : t.id ∈ ordered.map (fun u => u.id) := by
        refine hcover.2 t ?_
        rw [hinv.2.2.2.1]; exact ht
      obtain ⟨u, hu, huid⟩ := List.mem_map.mp htid
      obtain ⟨r, hr, hrid⟩ := hcov u hu
      exact ⟨r, hr, by rw [hrid, huid]⟩
    · exact hterm

theorem runFailFastLoop_cons_skip (ee : ExecutionEngine) (t : Test)
    (rest : List Test) (hskip : ¬ shouldRunTest ee t = true) :
    runFailFastLoop ee (t :: rest) =
      runFailFastLoop (skipTest ee t "dependencies failed") rest := by
  simp only [runFailFastLoop]
  rw [if_neg hskip]

theorem runFailFastLoop_cons_pass (ee : ExecutionEngine) (t : Test)
    (rest : List Test) (hrun : shouldRunTest ee t = true)
    (hnotfail : ¬ (engineExecuteTest ee t).2.status = TestStatus.failed) :
    runFailFastLoop ee (t :: rest) =
      runFailFastLoop (markTestCompleted
        (recordResult (engineExecuteTest ee t).1 (engineExecuteTest ee t).2)
        t.id) rest := by
  simp only [runFailFastLoop]
  rw [if_pos hrun]
  rw [if_neg hnotfail]

theorem runFailFastLoop_cons_fail (ee : ExecutionEngine) (t : Test)
    (rest : List Test) (hrun : shouldRunTest ee t = true)
    (hfail : (engineExecuteTest ee t).2.status = TestStatus.failed) :
    (runFailFastLoop ee (t :: rest)).2.2 = some ("test failed: " ++ t.id) := by
  simp only [runFailFastLoop]
  rw [if_pos hrun]
  rw [if_pos hfail]

theorem runFailFastLoop_covers (l : List Test) :
    ∀ ee : ExecutionEngine, (runFailFastLoop ee l).2.2 = none →
      ∃ suffix : List ExecutionResult,
        (runFailFastLoop ee l).2.1 = ee.results ++ suffix ∧
        (∀ t ∈ l, ∃ r ∈ suffix, r.testID = t.id) ∧
        (∀ r ∈ suffix, r.status.isTerminal = true) := by
  induction l with
  | nil =>
    intro ee _
    refine ⟨[], by simp [runFailFastLoop], ⟨?_, ?_⟩⟩
    · intro t ht; cases ht
    · intro r hr; cases hr
  | cons t rest ih =>
    intro ee hnone
    by_cases hrun : shouldRunTest ee t = true
    · by_cases hfail : (engineExecuteTest ee t).2.status = TestStatus.failed
      · exfalso
        rw [runFailFastLoop_cons_fail ee t rest hrun hfail] at hnone
        cases hnone
      · rw [runFailFastLoop_cons_pass ee t rest hrun hfail] at hnone ⊢
        obtain ⟨suffix, hsuf, hcov, hterm⟩ := ih _ hnone
        rw [hsuf]
        have hrec : (markTestCompleted
            (recordResult (engineExecuteTest ee t).1 (engineExecuteTest ee t).2)
            t.id).results = ee.results ++ [(engineExecuteTest ee t).2] := by
          show (recordResult (engineExecuteTest ee t).1
            (engineExecuteTest ee t).2).results = _
          rw [recordResult_results]
          rfl
        rw [hrec, List.append_assoc]
        have hfacts := executeTest_result_facts ee.config t
        have hterm1 : (engineExecuteTest ee t).2.status.isTerminal = true := by
          rcases hfacts.2 with h | h <;>
            (show (executeTest ee.config t).1.status.isTerminal = true) <;>
            rw [h] <;> rfl
        refine ⟨[(engineExecuteTest ee t).2] ++ suffix, rfl, ?_, ?_⟩
        · intro u hu
          rcases List.mem_cons.mp hu with hut | hur
          · refine ⟨(engineExecuteTest ee t).2,
              List.mem_append_left _ (List.mem_singleton_self _), ?_⟩
            rw [hut]; exact hfacts.1
          · obtain ⟨r, hr, hrid⟩ := hcov u hur
            exact ⟨r, List.mem_append_right _ hr, hrid⟩
        · intro r hr
          rcases List.mem_append.mp hr with h1 | h2
          · rw [List.mem_singleton.mp h1]; exact hterm1
          · exact hterm r h2
    · rw [runFailFastLoop_cons_skip ee t rest hrun] at hnone ⊢
      obtain ⟨suffix, hsuf, hcov, hterm⟩ := ih _ hnone
      rw [hsuf, skipTest_results, List.append_assoc]
      refine ⟨[skippedResult t "dependencies failed"] ++ suffix, rfl, ?_, ?_⟩
      · intro u hu
        rcases List.mem_cons.mp hu with hut | hur
        · refine ⟨_, List.mem_append_left _ (List.mem_singleton_self _), ?_⟩
          rw [hut]
          rfl
        · obtain ⟨r, hr, hrid⟩ := hcov u hur
          exact ⟨r, List.mem_append_right _ hr, hrid⟩
      · intro r hr
        rcases List.mem_append.mp hr with h1 | h2
        · rw [List.mem_singleton.mp h1]; rfl
        · exact hterm r h2

theorem runFailFast_covers (tests : List Test) (config : RunConfig)
    (ee : ExecutionEngine)
    (hok : (NewExecutionEngine tests (some config)).1 = Except.ok ee)
    (hids : (tests.map (fun t => t.id)).Nodup)
    (hnone : (runFailFast ee).2.2 = none) :
    (∀ t ∈ tests, ∃ r ∈ (runFailFast ee).2.1, r.testID = t.id) ∧
    (∀ r ∈ (runFailFast ee).2.1, r.status.isTerminal = true) := by
  have hinv := newEngine_ok_inv tests config ee hok
  have hff : ∀ ordered, GetExecutionOrder ee.plan = Except.ok ordered →
      runFailFast ee = runFailFastLoop ee ordered := by
    intro ordered hord
    unfold runFailFast
    rw [hord]
  cases hord : GetExecutionOrder ee.plan with
  | error e =>
    exfalso
    unfold runFailFast at hnone
    rw [hord] at hnone
    cases hnone
  | ok ordered =>
    rw [hff ordered hord] at hnone ⊢
    have hplanids : (ee.plan.tests.map (fun t => t.id)).Nodup := by
      rw [hinv.2.2.2.1]; exact hids
    have hcover := getExecutionOrder_covers ee.plan ordered hplanids hord
    obtain ⟨suffix, hsuf, hcov, hterm⟩ := runFailFastLoop_covers ordered ee hnone
    have hres0 : ee.results = [] := hinv.2.2.2.2.2.2.2.2.2.1
    rw [hsuf, hres0, List.nil_append]
    constructor
    · intro t ht
      have htid : t.id ∈ ordered.map (fun u => u.id) := by
        refine hcover.2 t ?_
        rw [hinv.2.2.2.1]; exact ht
      obtain ⟨u, hu, huid⟩ := List.mem_map.mp htid
      obtain ⟨r, hr, hrid⟩ := hcov u hu
      exact ⟨r, hr, by rw [hrid, huid]⟩
    · exact hterm


/-! ### Parallel coverage lemmas (for C5) -/

theorem clampLow_ge_one (c : RunConfig) : 1 ≤ (clampLow c).maxWorkers := by
  unfold clampLow
  split
  · exact le_refl 1
  · rename_i h
    omega

theorem clampConfig_ge_one (c : RunConfig) : 1 ≤ (clampConfig c).maxWorkers := by
  unfold clampConfig
  split
  · show (1 : Int) ≤ 100
    decide
  · exact clampLow_ge_one c

theorem nodup_cover_of_card (l m : List String) (hl : l.Nodup) (hm : m.Nodup)
    (hsub : ∀ x ∈ l, x ∈ m) (hlen : m.length ≤ l.length) :
    ∀ x ∈ m, x ∈ l := by
  intro x hx
  have hsubF : l.toFinset ⊆ m.toFinset := by
    intro i hi
    rw [List.mem_toFinset] at hi ⊢
    exact hsub i hi
  have hc1 : l.toFinset.card = l.length := by
    rw [List.card_toFinset, List.dedup_eq_self.mpr hl]
  have hc2 : m.toFinset.card = m.length := by
    rw [List.card_toFinset, List.dedup_eq_self.mpr hm]
  have heq := Finset.eq_of_subset_of_card_le hsubF (by omega)
  have hxF : x ∈ m.toFinset := List.mem_toFinset.mpr hx
  rw [← heq] at hxF
  exact List.mem_toFinset.mp hxF

theorem readyUndispatched_sublist (s : ParState) :
    List.Sublist (readyUndispatched s) s.ee.plan.tests :=
  (List.filter_sublist _).trans (List.filter_sublist _)

theorem readyUndispatched_nodup (tests0 : List Test) (s : ParState)
    (hpt : s.ee.plan.tests = tests0)
    (hids : (tests0.map (fun t => t.id)).Nodup) :
    ((readyUndispatched s).map (fun t => t.id)).Nodup := by
  have hsub := (readyUndispatched_sublist s).map (fun t => t.id)
  rw [hpt] at hsub
  exact hids.sublist hsub

theorem readyUndispatched_fresh (s : ParState) (t : Test)
    (h : t ∈ readyUndispatched s) : t.id ∉ s.dispatched := by
  have hp := List.of_mem_filter h
  simp only [Bool.not_eq_true'] at hp
  intro hmem
  have hc : s.dispatched.contains t.id = true := List.elem_eq_true_of_mem hmem
  rw [hc] at hp
  cases hp

theorem workerProcess_results (ee : ExecutionEngine) (t : Test) :
    ∃ res : ExecutionResult,
      (workerProcess ee t).results = ee.results ++ [res] ∧
      res.testID = t.id ∧ res.status.isTerminal = true := by
  unfold workerProcess
  split
  · dsimp only
    have hfacts := executeTest_result_facts ee.config t
    refine ⟨(executeTest ee.config t).1, ?_, hfacts.1, ?_⟩
    · split
      · show (recordResult (engineExecuteTest ee t).1 _).results = _
        rw [recordResult_results]
        rfl
      · split
        · show (recordResult (engineExecuteTest ee t).1 _).results = _
          rw [recordResult_results]
          rfl
        · show (recordResult (engineExecuteTest ee t).1 _).results = _
          rw [recordResult_results]
          rfl
    · rcases hfacts.2 with h | h <;> rw [h] <;> rfl
  · refine ⟨_, skipTest_results ee t _, rfl, rfl⟩

theorem parDispatch_ee (s : ParState) : (parDispatch s).ee = s.ee := by
  unfold parDispatch
  split
  · rfl
  · split
    · rfl
    · split
      · split <;> rfl
      · rfl

theorem parWork_results (s : ParState) :
    ∃ suffix : List ExecutionResult,
      (parWork s).ee.results = s.ee.results ++ suffix ∧
      ∀ r ∈ suffix, r.status.isTerminal = true := by
  unfold parWork
  split
  · exact ⟨[], by simp, fun r hr => absurd hr (List.not_mem_nil r)⟩
  · split
    · exact ⟨[], by simp, fun r hr => absurd hr (List.not_mem_nil r)⟩
    · rename_i t rest heq
      split
      · refine ⟨[skippedResult t "context canceled"], ?_, ?_⟩
        · show (skipTest s.ee t "context canceled").results = _
          rw [skipTest_results]
          rfl
        · intro r hr
          rw [List.mem_singleton.mp hr]
          rfl
      · obtain ⟨res, hres, hid, hterm⟩ := workerProcess_results s.ee t
        refine ⟨[res], ?_, ?_⟩
        · show (workerProcess s.ee t).results = _
          rw [hres]
        · intro r hr
          rw [List.mem_singleton.mp hr]
          exact hterm

theorem parStep_terminal (s : ParState) (p : PStep)
    (h : ∀ r ∈ s.ee.results, r.status.isTerminal = true) :
    ∀ r ∈ (parStep s p).ee.results, r.status.isTerminal = true := by
  cases p with
  | cancel => exact h
  | dispatch =>
    show ∀ r ∈ (parDispatch s).ee.results, r.status.isTerminal = true
    rw [parDispatch_ee]
    exact h
  | work =>
    obtain ⟨suffix, hsuf, hterm⟩ := parWork_results s
    show ∀ r ∈ (parWork s).ee.results, r.status.isTerminal = true
    rw [hsuf]
    intro r hr
    rcases List.mem_append.mp hr with h1 | h2
    · exact h r h1
    · exact hterm r h2

theorem parFold_terminal (sched : List PStep) :
    ∀ s : ParState, (∀ r ∈ s.ee.results, r.status.isTerminal = true) →
      ∀ r ∈ (sched.foldl parStep s).ee.results, r.status.isTerminal = true := by
  induction sched with
  | nil => intro s h; exact h
  | cons p rest ih =>
    intro s h
    rw [List.foldl_cons]
    exact ih (parStep s p) (parStep_terminal s p h)

theorem parStep_coverInv (tests0 : List Test) (s : ParState) (p : PStep)
    (hp : p ≠ PStep.cancel)
    (hids : (tests0.map (fun t => t.id)).Nodup)
    (hq : ParQueueInv tests0 s) (hc : ParCoverInv tests0 s) :
    ParCoverInv tests0 (parStep s p) := by
  obtain ⟨het, hpt, hqm⟩ := hq
  obtain ⟨hcan, hwork, hnd, hsub, hqr, hdd⟩ := hc
  cases p with
  | cancel => exact absurd rfl hp
  | dispatch =>
    show ParCoverInv tests0 (parDispatch s)
    unfold parDispatch
    split
    · exact ⟨hcan, hwork, hnd, hsub, hqr, hdd⟩
    · split
      · rename_i h2
        rw [hcan] at h2
        cases h2
      · split
        · split
          · rename_i hlen
            refine ⟨hcan, hwork, hnd, hsub, hqr, ?_⟩
            intro _ t ht
            have hlen2 : (tests0.map (fun u => u.id)).length ≤
                s.dispatched.length := by
              rw [List.length_map, ← het]
              omega
            exact nodup_cover_of_card s.dispatched
              (tests0.map (fun u => u.id)) hnd hids hsub hlen2 t.id
              (List.mem_map_of_mem _ ht)
          · exact ⟨hcan, hwork, hnd, hsub, hqr, hdd⟩
        · rename_i hdd0 _ _
          refine ⟨hcan, hwork, ?_, ?_, ?_, ?_⟩
          · refine List.Nodup.append hnd
              (readyUndispatched_nodup tests0 s hpt hids) ?_
            intro a ha hb
            obtain ⟨u, hu, hid⟩ := List.mem_map.mp hb
            exact readyUndispatched_fresh s u hu (hid ▸ ha)
          · intro i hi
            rcases List.mem_append.mp hi with h1 | h2
            · exact hsub i h1
            · obtain ⟨u, hu, hid⟩ := List.mem_map.mp h2
              have hu2 : u ∈ tests0 :=
                hpt ▸ (readyUndispatched_sublist s).subset hu
              exact hid ▸ List.mem_map_of_mem _ hu2
          · intro i hi
            rcases List.mem_append.mp hi with h1 | h2
            · rcases hqr i h1 with hql | hrl
              · left
                show i ∈ (s.queue ++ readyUndispatched s).map (fun t => t.id)
                rw [List.map_append]
                exact List.mem_append_left _ hql
              · right
                exact hrl
            · left
              show i ∈ (s.queue ++ readyUndispatched s).map (fun t => t.id)
              rw [List.map_append]
              exact List.mem_append_right _ h2
          · intro hddt
            exact absurd hddt hdd0
  | work =>
    show ParCoverInv tests0 (parWork s)
    unfold parWork
    split
    · exact ⟨hcan, hwork, hnd, hsub, hqr, hdd⟩
    · split
      · exact ⟨hcan, hwork, hnd, hsub, hqr, hdd⟩
      · rename_i t rest heq
        split
        · rename_i h2
          rw [hcan] at h2
          cases h2
        · obtain ⟨res, hres, hid, hterm⟩ := workerProcess_results s.ee t
          refine ⟨hcan, hwork, hnd, hsub, ?_, hdd⟩
          intro i hi
          rcases hqr i hi with hql | hrl
          · rw [heq] at hql
            obtain ⟨u, hu, huid⟩ := List.mem_map.mp hql
            rcases List.mem_cons.mp hu with hut | hur
            · right
              show i ∈ (workerProcess s.ee t).results.map (fun r => r.testID)
              rw [hres, List.map_append]
              refine List.mem_append_right _ ?_
              rw [← huid, hut, ← hid]
              exact List.mem_map_of_mem _ (List.mem_singleton_self res)
            · left
              show i ∈ rest.map (fun u => u.id)
              rw [← huid]
              exact List.mem_map_of_mem _ hur
          · right
            show i ∈ (workerProcess s.ee t).results.map (fun r => r.testID)
            rw [hres, List.map_append]
            exact List.mem_append_left _ hrl

theorem parFold_coverInv (tests0 : List Test)
    (hids : (tests0.map (fun t => t.id)).Nodup) (sched : List PStep) :
    PStep.cancel ∉ sched → ∀ s : ParState,
      ParQueueInv tests0 s → ParCoverInv tests0 s →
      ParQueueInv tests0 (sched.foldl parStep s) ∧
      ParCoverInv tests0 (sched.foldl parStep s) := by
  induction sched with
  | nil =>
    intro _ s hq hc
    exact ⟨hq, hc⟩
  | cons p rest ih =>
    intro hnc s hq hc
    rw [List.mem_cons] at hnc
    push_neg at hnc
    obtain ⟨hp0, hnc2⟩ := hnc
    have hp : p ≠ PStep.cancel := fun h => hp0 h.symm
    rw [List.foldl_cons]
    exact ih hnc2 (parStep s p) (parStep_queueInv tests0 s p hq)
      (parStep_coverInv tests0 s p hp hids hq hc)

theorem runParallel_covers (tests : List Test) (config : RunConfig)
    (ee : ExecutionEngine) (sched : List PStep)
    (out : ExecutionEngine × List ExecutionResult × Option String)
    (hok : (NewExecutionEngine tests (some config)).1 = Except.ok ee)
    (hids : (tests.map (fun t => t.id)).Nodup)
    (hrun : runParallel ee sched = some out) :
    (∀ r ∈ out.2.1, r.status.isTerminal = true) ∧
    (PStep.cancel ∉ sched →
      ∀ t ∈ tests, ∃ r ∈ out.2.1, r.testID = t.id) := by
  have hinv := newEngine_ok_inv tests config ee hok
  have hres0 : ee.results = [] := hinv.2.2.2.2.2.2.2.2.2.1
  unfold runParallel at hrun
  split at hrun
  · rename_i hfin
    injection hrun with hout
    subst hout
    unfold parRunState at hfin ⊢
    have hterm0 : ∀ r ∈ (parInit ee).ee.results, r.status.isTerminal = true := by
      intro r hr
      have hr2 : r ∈ ee.results := hr
      rw [hres0] at hr2
      cases hr2
    constructor
    · show ∀ r ∈ (sched.foldl parStep (parInit ee)).ee.results,
        r.status.isTerminal = true
      exact parFold_terminal sched (parInit ee) hterm0
    · intro hnc t ht
      have hq0 : ParQueueInv tests (parInit ee) := by
        refine ⟨hinv.1, hinv.2.2.2.1, ?_⟩
        intro u hu
        cases hu
      have hc0 : ParCoverInv tests (parInit ee) := by
        refine ⟨rfl, ?_, List.nodup_nil, ?_, ?_, ?_⟩
        · show (0 : Int) < ee.config.maxWorkers
          rw [hinv.2.1]
          have h1 := clampConfig_ge_one config
          omega
        · intro i hi
          cases hi
        · intro i hi
          cases hi
        · intro h
          cases h
      obtain ⟨hqf, hcf⟩ := parFold_coverInv tests hids sched hnc (parInit ee)
        hq0 hc0
      obtain ⟨hcanf, hworkf, hndf, hsubf, hqrf, hddf⟩ := hcf
      unfold parFinished at hfin
      rw [Bool.and_eq_true] at hfin
      obtain ⟨hddone, hor⟩ := hfin
      rw [Bool.or_eq_true] at hor
      have hqe : (sched.foldl parStep (parInit ee)).queue = [] := by
        rcases hor with he | hle
        · exact List.isEmpty_iff.mp he
        · exfalso
          have h2 := of_decide_eq_true hle
          omega
      have hidm : t.id ∈ (sched.foldl parStep (parInit ee)).dispatched :=
        hddf hddone t ht
      rcases hqrf t.id hidm with hql | hrl
      · rw [hqe] at hql
        cases hql
      · obtain ⟨r, hr, hrid⟩ := List.mem_map.mp hrl
        exact ⟨r, hr, hrid⟩
  · cases hrun


/-- C5 counterexample: a parallel run whose context is cancelled before the
dispatcher's first pass returns its (empty) result list with no engine-level
error, silently omitting the submitted task `"A"`: the claim's coverage
property fails for `Run` as implemented (cancellation aborts the dispatcher
and the workers drain nothing, runner.go lines 226-239 return the empty
results with a nil error).  In Go this schedule is forced deterministically
by an already-expired `GlobalTimeout`. -/
theorem parallel_cancel_run_omits_tasks :
    exParEngineA.tests = [exTaskA] ∧
    (Run exParEngineA [PStep.cancel, PStep.dispatch]).map
      (fun out => (out.2.1, out.2.2)) = some ([], none) :=
  ⟨rfl, rfl⟩

/-- C5 (amended): for every engine built by `NewExecutionEngine` over tasks
with distinct IDs, (1) a sequential run that returns no error yields a
result for every submitted task and records only terminal statuses, (2)
likewise for a fail-fast run that returns no error, and (3) a parallel run
that returns at all records only terminal statuses (Passed, Failed, or
Skipped — never Pending, Running, or Retrying), and when its schedule
contains no cancellation it yields a result for every submitted task.  The
original claim's unconditional coverage fails only on cancelled parallel
runs (see the counterexample). -/
theorem run_results_cover_and_terminal (tests : List Test)
    (config : RunConfig) (ee : ExecutionEngine)
    (hok : (NewExecutionEngine tests (some config)).1 = Except.ok ee)
    (hids : (tests.map (fun t => t.id)).Nodup) :
    ((runSequential ee).2.2 = none →
      (∀ t ∈ tests, ∃ r ∈ (runSequential ee).2.1, r.testID = t.id) ∧
      (∀ r ∈ (runSequential ee).2.1, r.status.isTerminal = true)) ∧
    ((runFailFast ee).2.2 = none →
      (∀ t ∈ tests, ∃ r ∈ (runFailFast ee).2.1, r.testID = t.id) ∧
      (∀ r ∈ (runFailFast ee).2.1, r.status.isTerminal = true)) ∧
    (∀ (sched : List PStep)
      (out : ExecutionEngine × List ExecutionResult × Option String),
      runParallel ee sched = some out →
      (∀ r ∈ out.2.1, r.status.isTerminal = true) ∧
      (PStep.cancel ∉ sched →
        ∀ t ∈ tests, ∃ r ∈ out.2.1, r.testID = t.id)) :=
  ⟨fun hnone => runSequential_covers tests config ee hok hids hnone,
    fun hnone => runFailFast_covers tests config ee hok hids hnone,
    fun sched out hrun =>
      runParallel_covers tests config ee sched out hok hids hrun⟩

set_option maxRecDepth 4000 in
/-- C5 witness: the amended theorem applied to the one-task engine
`exParEngineA`, whose construction hypothesis and distinct-ID hypothesis
hold by computation: its error-free sequential run covers the task `"A"`
with only terminal statuses. -/
theorem run_results_cover_and_terminal_witness :
    (NewExecutionEngine [exTaskA] (some exParConfig)).1 =
      Except.ok exParEngineA ∧
    ([exTaskA].map (fun t => t.id)).Nodup ∧
    ((runSequential exParEngineA).2.2 = none →
      (∀ t ∈ [exTaskA],
        ∃ r ∈ (runSequential exParEngineA).2.1, r.testID = t.id) ∧
      (∀ r ∈ (runSequential exParEngineA).2.1,
        r.status.isTerminal = true)) :=
  ⟨rfl, by decide,
    (run_results_cover_and_terminal [exTaskA] exParConfig exParEngineA rfl
      (by decide)).1⟩

end JTBD
